import Mathlib

/-!
Verification development for the World Host rendezvous server.

This file gives a shallow embedding, in Lean 4, of the parts of the
server that the specification's testable claims are about:

* the protocol-version gate of the handshake (`protocol_versions.rs`,
  `main_server.rs`);
* the `ConnectionId` codec (`connection_id.rs`), with the word
  dictionary as a parameter (the `16k.txt` asset is not part of the
  sources; its properties — 16384 case-insensitively distinct words
  containing no `'-'` — are taken as hypotheses, following the spec);
* the dual-indexed connection registry (`connection_set.rs`);
* the offline friend-request stores (`message_handler.rs`,
  `util/mod.rs`);
* the framed-message receiver with its per-direction cipher
  (`socket_wrapper.rs`), where the AES-CFB8 cipher is modelled by its
  stream position (the number of bytes it has processed), which is the
  quantity that determines synchronization;
* the `IpInfo` 32-bit packing (`util/ip_info.rs`), where `f64`
  arithmetic is modelled by exact rational arithmetic and the
  saturating `as u32` cast is modelled explicitly;
* the rate limiter (`ratelimit/bucket.rs`, `ratelimit/limiter.rs`),
  where `Instant` and `Duration` are modelled by natural numbers
  (both subtractions in the source saturate at zero, matching `Nat`
  subtraction).

Rust strings are modelled as lists of byte values (`List Nat`); all the
strings involved are ASCII.  Hash maps are modelled as functions into
`Option`; `Vec` as `List`.
-/

deriving instance DecidableEq for Except

namespace WorldHost

/-! ## Protocol versions (`src/protocol/protocol_versions.rs`) -/

def protocolCurrent : Nat := 7

def protocolStable : Nat := 7

/-- `SUPPORTED` is declared as the inclusive range `CURRENT..=STABLE`;
`supportedContains v` is `SUPPORTED.contains(&v)`. -/
def supportedContains (v : Nat) : Bool :=
  protocolCurrent ≤ v && v ≤ protocolStable

/-- The protocol-version gate at the top of `handle_connection`
(`main_server.rs` lines 174–178): a version outside `SUPPORTED` is
answered with a critical `Error` and the connection is closed. -/
def versionGate (v : Nat) : Except String Unit :=
  if supportedContains v then Except.ok ()
  else Except.error s!"Unsupported protocol version {v}"

/-! ## ConnectionId codec (`src/connection/connection_id.rs`)

A word is a list of byte values.  `45` is `'-'`, `43` is `'+'`. -/

abbrev Word := List Nat

def WORD_SHIFT : Nat := 14

def WORD_MASK : Nat := (1 <<< WORD_SHIFT) - 1

/-- ASCII lower-casing of one byte, modelling the case-insensitivity of
`CaseInsensitiveHashMap` on the ASCII words involved. -/
def toLowerByte (c : Nat) : Nat :=
  if 65 ≤ c ∧ c ≤ 90 then c + 32 else c

def toLowerWord (w : Word) : Word :=
  w.map toLowerByte

/-- `str::split('-')`: splits at every separator, keeping empty pieces;
always returns at least one piece. -/
def splitOnSep (sep : Nat) : List Nat → List Word
  | [] => [[]]
  | c :: rest =>
    if c = sep then [] :: splitOnSep sep rest
    else
      match splitOnSep sep rest with
      | [] => [[c]]
      | t :: ts => (c :: t) :: ts

/-- `WORDS_FOR_CID_INVERSE`: the case-insensitive map from word to
index, built by inserting `(word, index)` pairs in order (a later
duplicate key overwrites an earlier one). -/
def wordsInverseGo (w : Word) : Nat → List Word → Option Nat → Option Nat
  | _, [], acc => acc
  | i, x :: xs, acc =>
    wordsInverseGo w (i + 1) xs
      (if toLowerWord x = toLowerWord w then some i else acc)

def wordsInverse (words : List Word) (w : Word) : Option Nat :=
  wordsInverseGo w 0 words none

/-- Error type of `ConnectionId::from_str`
(`ParseConnectionIdError`). -/
inductive ParseCidError
  | incorrectWords (count : Nat)
  | incorrectShort (length : Nat)
  | invalidNumber
  | unknownWord (word : Word)
deriving DecidableEq, Repr

/-- `char::to_digit(36)` on a byte. -/
def digitVal36 (c : Nat) : Option Nat :=
  if 48 ≤ c ∧ c ≤ 57 then some (c - 48)
  else if 65 ≤ c ∧ c ≤ 90 then some (c - 55)
  else if 97 ≤ c ∧ c ≤ 122 then some (c - 87)
  else none

def U64_LIMIT : Nat := 2 ^ 64

/-- Digit-accumulation loop of `u64::from_str_radix(_, 36)` with its
checked multiply/add. -/
def radix36Go : List Nat → Nat → Option Nat
  | [], acc => some acc
  | c :: rest, acc =>
    match digitVal36 c with
    | none => none
    | some d =>
      let acc := acc * 36 + d
      if acc ≥ U64_LIMIT then none else radix36Go rest acc

/-- `u64::from_str_radix(s, 36)`: an optional leading `'+'`, then a
non-empty run of base-36 digits (`none` models every `ParseIntError`). -/
def fromStrRadix36 (s : List Nat) : Option Nat :=
  match s with
  | [] => none
  | c :: rest =>
    let digits := if c = 43 then rest else c :: rest
    if digits = [] then none else radix36Go digits 0

/-- The word-resolution loop of `ConnectionId::from_str`:
`result |= index << shift` with `shift` stepping by `WORD_SHIFT`. -/
def lookupWordsGo (words : List Word) :
    List Word → Nat → Nat → Except ParseCidError Nat
  | [], result, _ => Except.ok result
  | w :: rest, result, shift =>
    match wordsInverse words w with
    | none => Except.error (ParseCidError.unknownWord w)
    | some part => lookupWordsGo words rest (result ||| (part <<< shift)) (shift + WORD_SHIFT)

/-- `ConnectionId::from_str`, parameterized by the dictionary. -/
def fromStr (words : List Word) (s : List Nat) : Except ParseCidError Nat :=
  let toks := splitOnSep 45 s
  if toks.length ≠ 3 then
    if toks.length ≠ 1 then Except.error (ParseCidError.incorrectWords toks.length)
    else
      let word := toks.headD []
      if word.length ≠ 9 then Except.error (ParseCidError.incorrectShort word.length)
      else
        match fromStrRadix36 word with
        | some v => Except.ok v
        | none => Except.error ParseCidError.invalidNumber
  else lookupWordsGo words toks 0 0

/-- `impl Display for ConnectionId`: the three masked word indexes, and
the dictionary indexings (`none` models an out-of-bounds panic). -/
def display (words : List Word) (n : Nat) : Option (List Nat) :=
  let first := n &&& WORD_MASK
  let second := (n >>> WORD_SHIFT) &&& WORD_MASK
  let third := ((n >>> WORD_SHIFT) >>> WORD_SHIFT) &&& WORD_MASK
  match words[first]?, words[second]?, words[third]? with
  | some w1, some w2, some w3 => some (w1 ++ 45 :: w2 ++ 45 :: w3)
  | _, _, _ => none

/-- The nine-character base-36 rendering of an id (most significant
digit first, lower-case letters).  The server never renders this legacy
short form; this is the spec's description of the strings the legacy
form parses ("1 token of exactly 9 characters ⇒ parsed as base-36
unsigned"). -/
def toBase36Digit (d : Nat) : Nat :=
  if d < 10 then 48 + d else 87 + d

def toBase36Digits (n : Nat) : List Nat :=
  (List.range 9).map (fun i => toBase36Digit (n / 36 ^ (8 - i) % 36))

/-- A concrete 16384-word dictionary used to witness the roundtrip
theorem: the 7-letter base-4 spellings over the letters `a`-`d`. -/
def cidWord (i : Nat) : Word :=
  [97 + i % 4, 97 + i / 4 % 4, 97 + i / 16 % 4, 97 + i / 64 % 4,
   97 + i / 256 % 4, 97 + i / 1024 % 4, 97 + i / 4096 % 4]

def cidDict : List Word :=
  (List.range 16384).map cidWord

/-! ## Connection registry (`src/connection/connection_set.rs`)

A connection is modelled by the two fields the registry consults: its
`ConnectionId` and its user uuid, both as naturals. -/

structure Conn where
  id : Nat
  user : Nat
deriving DecidableEq, Repr

/-- Pointwise update of a map modelled as a function into `Option`. -/
def updMap {β : Type} (f : Nat → Option β) (k : Nat) (v : Option β) : Nat → Option β :=
  fun x => if x = k then v else f x

/-- `Vec::swap_remove(i)`: the element at `i` is replaced by the last
element, which is then popped. -/
def swapRemove {α : Type} (l : List α) (i : Nat) : List α :=
  match l.getLast? with
  | none => []
  | some a => (l.set i a).dropLast

/-- The `position(|x| x.id == id)` / `swap_remove` pattern used by both
`add_force` and `remove` on a user bucket. -/
def removeById (l : List Conn) (t : Nat) : List Conn :=
  match l.findIdx? (fun x => x.id == t) with
  | some p => swapRemove l p
  | none => l

structure ConnectionSet where
  connections : Nat → Option Conn
  byUser : Nat → Option (List Conn)

def emptySet : ConnectionSet :=
  { connections := fun _ => none, byUser := fun _ => none }

def ConnectionSet.byId (s : ConnectionSet) (id : Nat) : Option Conn :=
  s.connections id

def ConnectionSet.byUserId (s : ConnectionSet) (u : Nat) : List Conn :=
  (s.byUser u).getD []

/-- `ConnectionSet::add_force`: insert into the id map, then — if an
incumbent was displaced — swap-remove the incumbent's id from the
bucket of the *newcomer's* user, and push the newcomer. -/
def ConnectionSet.addForce (s : ConnectionSet) (c : Conn) : ConnectionSet :=
  let old := s.connections c.id
  let connections := updMap s.connections c.id (some c)
  let bucket := (s.byUser c.user).getD []
  let bucket :=
    match old with
    | some o => removeById bucket o.id
    | none => bucket
  { connections := connections
    byUser := updMap s.byUser c.user (some (bucket ++ [c])) }

/-- `ConnectionSet::add`: fails (leaving the set unchanged) if the id
is already present. -/
def ConnectionSet.add (s : ConnectionSet) (c : Conn) : ConnectionSet × Bool :=
  if (s.connections c.id).isSome then (s, false)
  else (s.addForce c, true)

/-- `ConnectionSet::remove`: drop the id from the id map, swap-remove
the id from the bucket of `c.user`, and GC the bucket if it became
empty. -/
def ConnectionSet.remove (s : ConnectionSet) (c : Conn) : ConnectionSet :=
  let connections := updMap s.connections c.id none
  match s.byUser c.user with
  | some bucket =>
    let bucket := removeById bucket c.id
    { connections := connections
      byUser :=
        if bucket.isEmpty then updMap s.byUser c.user none
        else updMap s.byUser c.user (some bucket) }
  | none => { connections := connections, byUser := s.byUser }

inductive SetOp
  | add (c : Conn)
  | addForce (c : Conn)
  | remove (c : Conn)
deriving DecidableEq, Repr

def applySetOp (s : ConnectionSet) : SetOp → ConnectionSet
  | SetOp.add c => (s.add c).1
  | SetOp.addForce c => s.addForce c
  | SetOp.remove c => s.remove c

def runSet (ops : List SetOp) : ConnectionSet :=
  ops.foldl applySetOp emptySet

/-- Registry invariants of the spec: (R1) every connection in a user
bucket is the one found by id and vice versa (together with bucket/user
coherence), (R2) at most one stored connection per id (bucket ids are
duplicate-free), (R3) buckets never outlive their last member. -/
def RegInv (s : ConnectionSet) : Prop :=
  (∀ u l, s.byUser u = some l →
    l ≠ [] ∧ (l.map Conn.id).Nodup ∧
      ∀ c ∈ l, c.user = u ∧ s.connections c.id = some c) ∧
  (∀ i c, s.connections i = some c →
    c.id = i ∧ ∃ l, s.byUser c.user = some l ∧ c ∈ l)

/-- An operation is user-compatible at a state when the connection it
inserts or removes agrees on the user id with the incumbent of that
connection id, if any. -/
def opCompatible (s : ConnectionSet) : SetOp → Bool
  | SetOp.add _ => true
  | SetOp.addForce c =>
    match s.connections c.id with
    | some o => o.user == c.user
    | none => true
  | SetOp.remove c =>
    match s.connections c.id with
    | some o => o.user == c.user
    | none => true

def seqCompatible : ConnectionSet → List SetOp → Bool
  | _, [] => true
  | s, op :: rest => opCompatible s op && seqCompatible (applySetOp s op) rest

/-! ## Friend-request stores (`message_handler.rs` FriendRequest arm,
`main_server.rs` `dequeue_friend_requests`, `util/mod.rs`)

`LinkedHashSet` is modelled as a duplicate-free list in insertion
order; the per-user `DashMap`s are functions into lists, an absent key
being the empty list (which also absorbs the empty-bucket GC of
`remove_double_key`). -/

structure FRState (α : Type) where
  remembered : α → List α
  received : α → List α

def emptyFR {α : Type} : FRState α :=
  { remembered := fun _ => [], received := fun _ => [] }

def updList {α : Type} [DecidableEq α] (f : α → List α) (k : α) (v : List α) :
    α → List α :=
  fun x => if x = k then v else f x

/-- `add_with_circle_limit`: `LinkedHashSet::insert`, which on a
duplicate refreshes the element by moving it to the back (and returns
`false`, so a refresh never reaches the limit check); a fresh insert
that pushes the set over the limit pops and returns the front
element. -/
def addWithCircleLimit {α : Type} [DecidableEq α] (set : List α) (key : α)
    (limit : Nat) : List α × Option α :=
  if key ∈ set then (set.erase key ++ [key], none)
  else
    let set := set ++ [key]
    if set.length > limit then
      match set with
      | [] => ([], none)
      | x :: rest => (rest, some x)
    else (set, none)

/-- `remove_double_key(map, a, b)`: remove `b` from `map[a]` (an empty
bucket is identified with an absent one). -/
def removeDoubleKey {α : Type} [DecidableEq α] (map : α → List α) (a b : α) :
    α → List α :=
  fun x => if x = a then (map x).erase b else map x

/-- The enqueue branch of the `FriendRequest` arm of `handle_message`
(recipient offline, sender above `Insecure`): insert into
`remembered[self]` with limit 5, mirror any eviction into `received`,
insert into `received[to]` with limit 10, mirror any eviction into
`remembered`. -/
def frEnqueue {α : Type} [DecidableEq α] (st : FRState α) (selfU toU : α) :
    FRState α :=
  let r1 := addWithCircleLimit (st.remembered selfU) toU 5
  let remembered1 := updList st.remembered selfU r1.1
  let received1 :=
    match r1.2 with
    | some removedRemembered => removeDoubleKey st.received removedRemembered selfU
    | none => st.received
  let r2 := addWithCircleLimit (received1 toU) selfU 10
  let received2 := updList received1 toU r2.1
  let remembered2 :=
    match r2.2 with
    | some removedReceived => removeDoubleKey remembered1 removedReceived toU
    | none => remembered1
  { remembered := remembered2, received := received2 }

/-- `dequeue_friend_requests`: `received[user]` is removed wholesale up
front; then, for each queued sender in order, a `FriendRequest` message
is sent and only afterwards the matching remembered entry is cleared.
`send_message(...).await?` aborts the whole drain on a transport
failure, so only the senders whose send succeeded — the first `sendOk`
of the queue — have their remembered mirror removed; the rest keep a
remembered entry whose received side is already gone. -/
def frDequeue {α : Type} [DecidableEq α] (st : FRState α) (user : α)
    (sendOk : Nat) : FRState α :=
  let queued := st.received user
  let received1 := updList st.received user []
  let remembered1 :=
    (queued.take sendOk).foldl
      (fun m receivedFrom => removeDoubleKey m receivedFrom user)
      st.remembered
  { remembered := remembered1, received := received1 }

/-- A `connect` carries the number of `FriendRequest` sends that
succeed before the drain loop's `?` aborts it (any value at least the
queue length models a drain that completes). -/
inductive FROp (α : Type)
  | request (selfU toU : α)
  | connect (user : α) (sendOk : Nat)

def applyFROp {α : Type} [DecidableEq α] (st : FRState α) : FROp α → FRState α
  | FROp.request selfU toU => frEnqueue st selfU toU
  | FROp.connect user sendOk => frDequeue st user sendOk

def runFR {α : Type} [DecidableEq α] (ops : List (FROp α)) : FRState α :=
  ops.foldl applyFROp emptyFR

/-- The friend-request store invariants: both stores hold
duplicate-free lists within their bounds (5 and 10), and an entry on
one side always has its mirror on the other ((R4)/(P4)). -/
def FRInv {α : Type} (st : FRState α) : Prop :=
  (∀ a, (st.remembered a).Nodup ∧ (st.remembered a).length ≤ 5) ∧
  (∀ a, (st.received a).Nodup ∧ (st.received a).length ≤ 10) ∧
  (∀ a b, b ∈ st.remembered a ↔ a ∈ st.received b)

/-- The weak friend-request invariant that survives aborted dequeue
drains: bounds and duplicate-freedom on both sides, and the
received-to-remembered direction of the mirror.  The other direction
is exactly what a mid-drain transport failure breaks. -/
def FRInvW {α : Type} (st : FRState α) : Prop :=
  (∀ a, (st.remembered a).Nodup ∧ (st.remembered a).length ≤ 5) ∧
  (∀ a, (st.received a).Nodup ∧ (st.received a).length ≤ 10) ∧
  (∀ a b, a ∈ st.received b → b ∈ st.remembered a)

/-- Every `connect` in the sequence sends at least 10 messages
successfully; since a received bucket never exceeds 10 entries, such a
drain always runs to completion. -/
def drainsComplete {α : Type} (ops : List (FROp α)) : Bool :=
  ops.all fun op =>
    match op with
    | FROp.connect _ sendOk => 10 ≤ sendOk
    | _ => true

/-! ## Framed-message receiver (`src/socket_wrapper.rs`)

The stream is the list of bytes the socket will deliver, given
post-decryption (AES-CFB8 is a per-byte bijection); the cipher is
modelled by its position — the count of bytes it has processed — which
is what synchronization is about.  `decrypt` on a buffer advances the
position by the buffer length.  A result of `none` models the
divergence of the drain loop when the stream ends early (`read`
returning 0 forever). -/

structure RecvResult (M : Type) where
  result : Except String M
  cipher : Option Nat
  rest : List Nat
deriving DecidableEq, Repr

def MAX_MESSAGE : Nat := 2 * 1024 * 1024

def SKIP_BUFFER_SIZE : Nat := 2048

/-- `u32::from_be_bytes` on a big-endian byte list. -/
def beToNat (l : List Nat) : Nat :=
  l.foldl (fun a b => a * 256 + b) 0

/-- The oversize drain loop: read up to
`min(remaining, SKIP_BUFFER_SIZE)` bytes and subtract what was read;
a read of 0 (socket closed) loops forever, modelled as `none`. -/
def drainLoop (remaining : Nat) (s : List Nat) : Option (List Nat) :=
  if remaining = 0 then some s
  else
    let chunk := min remaining SKIP_BUFFER_SIZE
    let got := min chunk s.length
    if _h : got = 0 then none
    else drainLoop (remaining - got) (s.drop got)
termination_by remaining
decreasing_by
  omega

/-- `SocketReadWrapper::recv_message`: read and decrypt the 4-byte
length, refuse length 0, drain-and-refuse lengths over 2 MiB (the
drained bytes are read with plain `read`, not through the cipher), else
read and decrypt the body and hand `(data[0], data[1..])` to the
message parsing function. -/
def recvMessage {M : Type} (parseMsg : Nat → List Nat → Except String M)
    (cipher : Option Nat) (stream : List Nat) : Option (RecvResult M) :=
  if stream.length < 4 then some ⟨Except.error "eof", cipher, []⟩
  else
    let initial := stream.take 4
    let rest := stream.drop 4
    let cipher := cipher.map (· + 4)
    let size := beToNat initial
    if size = 0 then some ⟨Except.error "Message is empty", cipher, rest⟩
    else if size > MAX_MESSAGE then
      match drainLoop size rest with
      | some rest => some ⟨Except.error "Messages bigger than 2 MB are not allowed.", cipher, rest⟩
      | none => none
    else if rest.length < size then some ⟨Except.error "eof", cipher, []⟩
    else
      let data := rest.take size
      let cipher := cipher.map (· + size)
      some ⟨parseMsg (data.headD 0) data.tail, cipher, rest.drop size⟩

/-! ## IpInfo packing (`src/util/ip_info.rs`)

`f64` arithmetic is modelled by exact rationals; the `as u32` cast by a
floor with saturation; `u32` shifts by shift-then-`% 2 ^ 32`; the `u32`
subtraction `char − 'A'` by wrapping subtraction. -/

def FIXED_11_SHIFT : Nat := 11

def FIXED_11_MAGNITUDE : ℚ := 2048

def COUNTRY_CHAR_BASE : Nat := 65

def COUNTRY_CHAR_SHIFT : Nat := 5

def LAT_LONG_SHIFT : Nat := COUNTRY_CHAR_SHIFT * 2

def U32_LIMIT : Nat := 2 ^ 32

/-- `((double + 180.0) / 360.0 * FIXED_11_MAGNITUDE) as u32`. -/
def doubleToFixed11 (d : ℚ) : Nat :=
  min (⌊(d + 180) / 360 * FIXED_11_MAGNITUDE⌋).toNat (U32_LIMIT - 1)

/-- `lat_long_to_fixed22`. -/
def latLongToFixed22 (lat long : ℚ) : Nat :=
  (doubleToFixed11 lat <<< FIXED_11_SHIFT) % U32_LIMIT ||| doubleToFixed11 long

/-- `country_char_to_int`: wrapping `u32` subtraction of `'A'`. -/
def countryCharToInt (c : Nat) : Nat :=
  (c + U32_LIMIT - COUNTRY_CHAR_BASE) % U32_LIMIT

/-- `country_to_int` on the two stored code bytes. -/
def countryToInt (c1 c2 : Nat) : Nat :=
  (countryCharToInt c1 <<< COUNTRY_CHAR_SHIFT) % U32_LIMIT ||| countryCharToInt c2

structure IpInfo where
  country1 : Nat
  country2 : Nat
  lat : ℚ
  long : ℚ

/-- `IpInfo::to_u32`. -/
def IpInfo.toU32 (info : IpInfo) : Nat :=
  (latLongToFixed22 info.lat info.long <<< LAT_LONG_SHIFT) % U32_LIMIT |||
    countryToInt info.country1 info.country2

/-- The packing as the claim words it: longitude fixed-point at bits
[31..22], latitude at [21..11], first letter − 'A' at [10..5], second
letter − 'A' at [4..0]. -/
def claimPackU32 (info : IpInfo) : Nat :=
  (doubleToFixed11 info.long <<< 22) ||| (doubleToFixed11 info.lat <<< 11) |||
    ((info.country1 - COUNTRY_CHAR_BASE) <<< 5) ||| (info.country2 - COUNTRY_CHAR_BASE)

/-! ## Rate limiter (`src/ratelimit/bucket.rs`, `src/ratelimit/limiter.rs`)

`Instant` is a natural; both `Instant` subtractions in the source
saturate at zero, exactly like `Nat` subtraction. -/

structure RateLimited where
  bucket : String
  remaining : Nat
deriving DecidableEq, Repr

structure RateLimitBucket (K : Type) where
  name : String
  maxCount : Nat
  expiry : Nat
  entries : K → Option (Nat × Nat)

def updEntry {K : Type} [DecidableEq K] (f : K → Option (Nat × Nat)) (k : K)
    (v : Nat × Nat) : K → Option (Nat × Nat) :=
  fun x => if x = k then some v else f x

/-- `RateLimitBucket::ratelimit`: a missing or expired entry resets to
count 1 and allows; a live entry under the cap increments (stamping the
current time) and allows; otherwise deny, reporting
`entry.time - current_time + expiry` (a saturating subtraction). -/
def RateLimitBucket.ratelimit {K : Type} [DecidableEq K]
    (b : RateLimitBucket K) (key : K) (now : Nat) :
    Option RateLimited × RateLimitBucket K :=
  match b.entries key with
  | none => (none, { b with entries := updEntry b.entries key (now, 1) })
  | some (t, c) =>
    if now - t ≥ b.expiry then
      (none, { b with entries := updEntry b.entries key (now, 1) })
    else if c < b.maxCount then
      (none, { b with entries := updEntry b.entries key (now, c + 1) })
    else
      (some ⟨b.name, t - now + b.expiry⟩, b)

/-- A sequence of `ratelimit` calls on one bucket for one key at the
given times, counting the allowed ones. -/
def runCalls {K : Type} [DecidableEq K] (b : RateLimitBucket K) (key : K) :
    List Nat → Nat × RateLimitBucket K
  | [] => (0, b)
  | t :: ts =>
    let step := b.ratelimit key t
    let rest := runCalls step.2 key ts
    (rest.1 + (if step.1.isNone then 1 else 0), rest.2)

/-- `RateLimiter::ratelimit`: consult every bucket in order; the result
is the last denial, if any. -/
def limiterRatelimit {K : Type} [DecidableEq K] (bs : List (RateLimitBucket K))
    (key : K) (now : Nat) : Option RateLimited × List (RateLimitBucket K) :=
  bs.foldl
    (fun acc b =>
      let step := b.ratelimit key now
      (match step.1 with
       | some limited => some limited
       | none => acc.1,
       acc.2 ++ [step.2]))
    (none, [])

/-! ## Bit-arithmetic helpers -/

theorem lor_shiftLeft_eq_add {k a : Nat} (h : a < 2 ^ k) (b : Nat) :
    a ||| (b <<< k) = a + b * 2 ^ k := by
  apply Nat.eq_of_testBit_eq
  intro i
  rw [Nat.testBit_lor, Nat.testBit_shiftLeft]
  rcases Nat.lt_or_ge i k with hik | hik
  · have hd : decide (k ≤ i) = false := decide_eq_false (by omega)
    rw [hd, Bool.false_and, Bool.or_false]
    have hp : 2 ^ i * 2 * 2 ^ (k - i - 1) = 2 ^ k := by
      have h1 : 2 ^ i * 2 * 2 ^ (k - i - 1) = 2 ^ (i + 1 + (k - i - 1)) := by
        rw [Nat.pow_add, Nat.pow_add, Nat.pow_one]
      rw [h1]
      congr 1
      omega
    have hsum : a + b * 2 ^ k = a + 2 * (b * 2 ^ (k - i - 1)) * 2 ^ i := by
      rw [← hp]
      ring
    rw [Nat.testBit_to_div_mod, Nat.testBit_to_div_mod, hsum]
    rw [Nat.add_mul_div_right _ _ (Nat.pos_pow_of_pos i (by omega))]
    rw [Nat.add_mul_mod_self_left]
  · have hd : decide (k ≤ i) = true := decide_eq_true hik
    rw [hd, Bool.true_and]
    have ha : a.testBit i = false :=
      Nat.testBit_lt_two_pow (Nat.lt_of_lt_of_le h (Nat.pow_le_pow_right (by omega) hik))
    rw [ha, Bool.false_or]
    rw [Nat.testBit_to_div_mod, Nat.testBit_to_div_mod]
    have h2k : (0:Nat) < 2 ^ k := Nat.pos_pow_of_pos _ (by omega)
    have hstep : (a + b * 2 ^ k) / 2 ^ k = b := by
      rw [Nat.add_mul_div_right _ _ h2k, Nat.div_eq_of_lt h, Nat.zero_add]
    have hi : 2 ^ i = 2 ^ k * 2 ^ (i - k) := by
      rw [← Nat.pow_add]
      congr 1
      omega
    rw [hi, ← Nat.div_div_eq_div_mul, hstep]

theorem lor_three_words (i0 i1 i2 : Nat) (h0 : i0 < 2 ^ 14) (h1 : i1 < 2 ^ 14) :
    ((0 ||| i0 <<< 0) ||| i1 <<< 14) ||| i2 <<< 28 =
      i0 + i1 * 2 ^ 14 + i2 * 2 ^ 28 := by
  have e0 : 0 ||| i0 <<< 0 = i0 := by
    rw [Nat.zero_or, Nat.shiftLeft_zero]
  rw [e0]
  rw [lor_shiftLeft_eq_add h0]
  rw [lor_shiftLeft_eq_add]
  have : i1 * 2 ^ 14 < 2 ^ 14 * 2 ^ 14 := by
    exact Nat.mul_lt_mul_of_lt_of_le h1 (Nat.le_refl _) (by norm_num)
  omega

/-! ## Claim C1 -/

/-- Claim C1: the claim states that the server accepts a protocol
version `v` iff `v ∈ 2..=7`.  In the code, `SUPPORTED` is
`CURRENT..=STABLE = 7..=7`, so the gate accepts only `v = 7`: version 2
(like 3, 4, 5, 6) is answered with the critical
"Unsupported protocol version 2" error even though the claim (and the
rest of the code, which has dedicated handling for versions below 6)
says it is in the supported range. -/
theorem supported_versions_gate_bug :
    supportedContains 2 = false ∧ supportedContains 6 = false ∧
    versionGate 2 = Except.error "Unsupported protocol version 2" ∧
    versionGate 7 = Except.ok () ∧
    ∀ v, supportedContains v = true ↔ v = 7 := by
  refine ⟨rfl, rfl, rfl, rfl, ?_⟩
  intro v
  simp only [supportedContains, protocolCurrent, protocolStable, Bool.and_eq_true,
    decide_eq_true_eq]
  omega

/-! ## Claim C8 -/

theorem doubleToFixed11_eq_toNat_floor {d : ℚ} (h1 : -180 ≤ d) (h2 : d < 180) :
    doubleToFixed11 d = (⌊(d + 180) / 360 * 2048⌋).toNat ∧ doubleToFixed11 d < 2048 := by
  have hq0 : (0:ℚ) ≤ (d + 180) / 360 * 2048 := by
    have : (0:ℚ) ≤ (d + 180) / 360 := by
      apply div_nonneg
      · linarith
      · norm_num
    nlinarith
  have hq1 : (d + 180) / 360 * 2048 < 2048 := by
    have : (d + 180) / 360 < 1 := by
      rw [div_lt_one (by norm_num : (0:ℚ) < 360)]
      linarith
    nlinarith
  have hf0 : (0:ℤ) ≤ ⌊(d + 180) / 360 * 2048⌋ := Int.floor_nonneg.mpr hq0
  have hf1 : ⌊(d + 180) / 360 * 2048⌋ < 2048 := by
    rw [Int.floor_lt]
    exact_mod_cast hq1
  have ht : (⌊(d + 180) / 360 * 2048⌋).toNat < 2048 := by omega
  constructor
  · unfold doubleToFixed11 FIXED_11_MAGNITUDE U32_LIMIT
    omega
  · unfold doubleToFixed11 FIXED_11_MAGNITUDE U32_LIMIT
    omega

/-- Claim C8 counterexample: for the in-range `IpInfo` with country
"CA", latitude 0 and longitude 90, `to_u32` yields 2149056576 (latitude
fixed-point 1024 in bits [31..21], longitude fixed-point 1536 in bits
[20..10], letters in [9..5] and [4..0]), while the claim's layout —
longitude at [31..22], latitude at [21..11], first letter at [10..5] —
would give 6444548160, a different value (indeed one that does not even
fit in 32 bits). -/
theorem ip_info_pack_counterexample :
    IpInfo.toU32 ⟨67, 65, 0, 90⟩ = 2149056576 ∧
    claimPackU32 ⟨67, 65, 0, 90⟩ = 6444548160 ∧
    IpInfo.toU32 ⟨67, 65, 0, 90⟩ ≠ claimPackU32 ⟨67, 65, 0, 90⟩ := by
  have h1 : IpInfo.toU32 ⟨67, 65, 0, 90⟩ = 2149056576 := by
    norm_num [IpInfo.toU32, latLongToFixed22, countryToInt, countryCharToInt,
      doubleToFixed11, FIXED_11_MAGNITUDE, FIXED_11_SHIFT, LAT_LONG_SHIFT,
      COUNTRY_CHAR_SHIFT, COUNTRY_CHAR_BASE, U32_LIMIT]
    rfl
  have h2 : claimPackU32 ⟨67, 65, 0, 90⟩ = 6444548160 := by
    norm_num [claimPackU32, doubleToFixed11, FIXED_11_MAGNITUDE, COUNTRY_CHAR_BASE,
      U32_LIMIT]
    rfl
  refine ⟨h1, h2, ?_⟩
  rw [h1, h2]
  decide

/-- Claim C8, amended: for an `IpInfo` whose country code consists of
two letters in 'A'..'Z' and whose latitude and longitude are in
[-180, 180), `to_u32` packs the *latitude* fixed-point value into bits
[31..21], the *longitude* fixed-point value into bits [20..10], the
first letter − 'A' into bits [9..5] and the second letter − 'A' into
bits [4..0], where the fixed-point value of an angle is
(angle + 180) / 360 × 2048 truncated (and always fits in 11 bits). -/
theorem ip_info_pack_layout (info : IpInfo)
    (hc1 : 65 ≤ info.country1 ∧ info.country1 ≤ 90)
    (hc2 : 65 ≤ info.country2 ∧ info.country2 ≤ 90)
    (hlat : -180 ≤ info.lat ∧ info.lat < 180)
    (hlong : -180 ≤ info.long ∧ info.long < 180) :
    doubleToFixed11 info.lat < 2048 ∧ doubleToFixed11 info.long < 2048 ∧
    doubleToFixed11 info.lat = (⌊(info.lat + 180) / 360 * 2048⌋).toNat ∧
    doubleToFixed11 info.long = (⌊(info.long + 180) / 360 * 2048⌋).toNat ∧
    info.toU32 =
      doubleToFixed11 info.lat * 2 ^ 21 + doubleToFixed11 info.long * 2 ^ 10 +
        (info.country1 - 65) * 2 ^ 5 + (info.country2 - 65) := by
  obtain ⟨hlatEq, hlatLt⟩ := doubleToFixed11_eq_toNat_floor hlat.1 hlat.2
  obtain ⟨hlongEq, hlongLt⟩ := doubleToFixed11_eq_toNat_floor hlong.1 hlong.2
  refine ⟨hlatLt, hlongLt, hlatEq, hlongEq, ?_⟩
  set lf := doubleToFixed11 info.lat with hlf
  set gf := doubleToFixed11 info.long with hgf
  have hc1' : countryCharToInt info.country1 = info.country1 - 65 := by
    unfold countryCharToInt COUNTRY_CHAR_BASE U32_LIMIT
    omega
  have hc2' : countryCharToInt info.country2 = info.country2 - 65 := by
    unfold countryCharToInt COUNTRY_CHAR_BASE U32_LIMIT
    omega
  have hf22 : latLongToFixed22 info.lat info.long = gf + lf * 2 ^ 11 := by
    unfold latLongToFixed22 FIXED_11_SHIFT U32_LIMIT
    rw [← hlf, ← hgf]
    have e1 : lf <<< 11 % 2 ^ 32 = lf <<< 11 := by
      rw [Nat.shiftLeft_eq]
      apply Nat.mod_eq_of_lt
      omega
    rw [e1, Nat.lor_comm]
    exact lor_shiftLeft_eq_add (by omega) lf
  have hcty : countryToInt info.country1 info.country2 =
      (info.country2 - 65) + (info.country1 - 65) * 2 ^ 5 := by
    unfold countryToInt COUNTRY_CHAR_SHIFT U32_LIMIT
    rw [hc1', hc2']
    have e1 : (info.country1 - 65) <<< 5 % 2 ^ 32 = (info.country1 - 65) <<< 5 := by
      rw [Nat.shiftLeft_eq]
      apply Nat.mod_eq_of_lt
      omega
    rw [e1, Nat.lor_comm]
    exact lor_shiftLeft_eq_add (by omega) _
  unfold IpInfo.toU32 LAT_LONG_SHIFT COUNTRY_CHAR_SHIFT U32_LIMIT
  rw [hf22, hcty]
  have e1 : (gf + lf * 2 ^ 11) <<< (5 * 2) % 2 ^ 32 = (gf + lf * 2 ^ 11) <<< (5 * 2) := by
    rw [Nat.shiftLeft_eq]
    apply Nat.mod_eq_of_lt
    omega
  rw [e1, Nat.lor_comm]
  rw [lor_shiftLeft_eq_add (by omega : (info.country2 - 65) + (info.country1 - 65) * 2 ^ 5 < 2 ^ (5 * 2)) _]
  have e2 : (2:Nat) ^ (5 * 2) = 2 ^ 10 := by norm_num
  rw [e2]
  omega

/-- Claim C8 witness: the amended layout theorem applied at the
concrete in-range `IpInfo` with country "CA", latitude 0 and
longitude 90. -/
theorem ip_info_pack_layout_witness :
    IpInfo.toU32 ⟨67, 65, 0, 90⟩ =
      doubleToFixed11 (IpInfo.lat ⟨67, 65, 0, 90⟩) * 2 ^ 21 +
        doubleToFixed11 (IpInfo.long ⟨67, 65, 0, 90⟩) * 2 ^ 10 +
        (IpInfo.country1 ⟨67, 65, 0, 90⟩ - 65) * 2 ^ 5 +
        (IpInfo.country2 ⟨67, 65, 0, 90⟩ - 65) := by
  have hc1 : 65 ≤ (⟨67, 65, 0, 90⟩ : IpInfo).country1 ∧
      (⟨67, 65, 0, 90⟩ : IpInfo).country1 ≤ 90 := by norm_num
  have hc2 : 65 ≤ (⟨67, 65, 0, 90⟩ : IpInfo).country2 ∧
      (⟨67, 65, 0, 90⟩ : IpInfo).country2 ≤ 90 := by norm_num
  have hlat : -180 ≤ (⟨67, 65, 0, 90⟩ : IpInfo).lat ∧
      (⟨67, 65, 0, 90⟩ : IpInfo).lat < 180 := by norm_num
  have hlong : -180 ≤ (⟨67, 65, 0, 90⟩ : IpInfo).long ∧
      (⟨67, 65, 0, 90⟩ : IpInfo).long < 180 := by norm_num
  have h := ip_info_pack_layout ⟨67, 65, 0, 90⟩ hc1 hc2 hlat hlong
  exact h.2.2.2.2

/-! ## Claim C9 -/

theorem runCalls_window_go {K : Type} [DecidableEq K] (key : K) (t0 : Nat) :
    ∀ (ts : List Nat) (b : RateLimitBucket K) (k tl : Nat),
      1 ≤ k →
      b.entries key = some (tl, min k b.maxCount) →
      t0 ≤ tl → tl < t0 + b.expiry →
      (∀ t ∈ ts, t0 ≤ t ∧ t < t0 + b.expiry) →
      (runCalls b key ts).1 = min (k + ts.length) b.maxCount - min k b.maxCount := by
  intro ts
  induction ts with
  | nil =>
    intro b k tl _ _ _ _ _
    simp [runCalls]
  | cons t ts ih =>
    intro b k tl hk hentry htl0 htl1 hts
    have hthead := hts t (List.mem_cons_self t ts)
    have htail : ∀ u ∈ ts, t0 ≤ u ∧ u < t0 + b.expiry := fun u hu =>
      hts u (List.mem_cons_of_mem t hu)
    have hno : ¬ t - tl ≥ b.expiry := by omega
    rcases Nat.lt_or_ge (min k b.maxCount) b.maxCount with hlt | hge
    · have hkmax : k < b.maxCount := by omega
      have hcnt : min k b.maxCount + 1 = min (k + 1) b.maxCount := by omega
      have hstep : b.ratelimit key t =
          (none, { b with entries := updEntry b.entries key (t, min k b.maxCount + 1) }) := by
        unfold RateLimitBucket.ratelimit
        rw [hentry]
        simp only [if_neg hno, if_pos hlt]
      have hrec := ih { b with entries := updEntry b.entries key (t, min k b.maxCount + 1) }
        (k + 1) t (by omega) (by simp [updEntry, hcnt]) hthead.1 hthead.2 htail
      show (runCalls b key (t :: ts)).1 = _
      simp only [runCalls, hstep]
      simp only [Option.isNone_none, if_true]
      simp only [hrec, List.length_cons]
      omega
    · have hstep : b.ratelimit key t =
          (some ⟨b.name, tl - t + b.expiry⟩, b) := by
        unfold RateLimitBucket.ratelimit
        rw [hentry]
        have hnd : ¬ min k b.maxCount < b.maxCount := by omega
        simp only [if_neg hno, if_neg hnd]
      have hrec := ih b k tl hk hentry htl0 htl1 htail
      show (runCalls b key (t :: ts)).1 = _
      simp only [runCalls, hstep]
      simp only [Option.isNone_some, Bool.false_eq_true, if_false]
      simp only [hrec, List.length_cons]
      omega

theorem limiter_any_go {K : Type} [DecidableEq K] (key : K) (now : Nat) :
    ∀ (bs : List (RateLimitBucket K)) (acc : Option RateLimited)
      (done : List (RateLimitBucket K)),
      (bs.foldl
        (fun acc b =>
          let step := b.ratelimit key now
          (match step.1 with
           | some limited => some limited
           | none => acc.1,
           acc.2 ++ [step.2]))
        (acc, done)).1.isSome =
      (acc.isSome || bs.any fun b => (b.ratelimit key now).1.isSome) := by
  intro bs
  induction bs with
  | nil =>
    intro acc done
    simp
  | cons b bs ih =>
    intro acc done
    simp only [List.foldl_cons, List.any_cons]
    rw [ih]
    cases hstep : (b.ratelimit key now).1 with
    | none => simp
    | some limited => simp

/-- Claim C9, amended: (i) for any key and any bucket with parameters
(max, window) where max ≥ 1, a sequence of N ratelimit calls falling
within a single window admits exactly min(N, max) calls and denies the
rest (for max = 0 the first call on a fresh key is still admitted, since
a missing entry resets to count 1 and allows — see the counterexample);
(ii) after window elapses with no calls for that key the bucket resets,
so the next call is admitted with count 1; (iii) a key is denied by the
multi-bucket limiter if and only if at least one bucket denies it. -/
theorem ratelimit_bucket_behaviour {K : Type} [DecidableEq K] :
    (∀ (b : RateLimitBucket K) (key : K) (t0 : Nat) (ts : List Nat),
      1 ≤ b.maxCount →
      b.entries key = none →
      (∀ t ∈ ts, t0 ≤ t ∧ t < t0 + b.expiry) →
      (runCalls b key ts).1 = min ts.length b.maxCount) ∧
    (∀ (b : RateLimitBucket K) (key : K) (t c now : Nat),
      b.entries key = some (t, c) →
      t + b.expiry ≤ now →
      (b.ratelimit key now).1 = none ∧
        (b.ratelimit key now).2.entries key = some (now, 1)) ∧
    (∀ (bs : List (RateLimitBucket K)) (key : K) (now : Nat),
      (limiterRatelimit bs key now).1.isSome =
        bs.any fun b => (b.ratelimit key now).1.isSome) := by
  refine ⟨?_, ?_, ?_⟩
  · intro b key t0 ts hmax hfresh hts
    cases ts with
    | nil => simp [runCalls]
    | cons t ts =>
      have hthead := hts t (List.mem_cons_self t ts)
      have htail : ∀ u ∈ ts, t0 ≤ u ∧ u < t0 + b.expiry := fun u hu =>
        hts u (List.mem_cons_of_mem t hu)
      have hstep : b.ratelimit key t =
          (none, { b with entries := updEntry b.entries key (t, 1) }) := by
        unfold RateLimitBucket.ratelimit
        rw [hfresh]
      have hone : (1 : Nat) = min 1 b.maxCount := by omega
      have hrec := runCalls_window_go key t0 ts
        { b with entries := updEntry b.entries key (t, 1) } 1 t (by omega)
        (by simp [updEntry, ← hone]) hthead.1 hthead.2 htail
      show (runCalls b key (t :: ts)).1 = _
      simp only [runCalls, hstep]
      simp only [Option.isNone_none, if_true]
      simp only [hrec, List.length_cons]
      omega
  · intro b key t c now hentry helapsed
    have hexp : now - t ≥ b.expiry := by omega
    constructor
    · unfold RateLimitBucket.ratelimit
      rw [hentry]
      simp only [if_pos hexp]
    · unfold RateLimitBucket.ratelimit
      rw [hentry]
      simp [hexp, updEntry]
  · intro bs key now
    unfold limiterRatelimit
    rw [limiter_any_go key now bs none []]
    simp

/-- Claim C9 counterexample: a bucket with max = 0 admits its first
call (a fresh key resets to count 1 and allows) even though the claim's
min(N, max) formula says a sequence of one call should admit
min(1, 0) = 0. -/
theorem ratelimit_bucket_counterexample :
    (runCalls (K := Nat) ⟨"per_minute", 0, 10, fun _ => none⟩ 3 [5]).1 = 1 ∧
      (1 : Nat) ≠ min 1 0 := by
  constructor
  · decide
  · decide

/-- Claim C9 witness: the amended theorem applied to a concrete bucket
(max 2, window 10) with three calls inside one window (2 = min 3 2
admitted), to a concrete expired entry, and to a concrete two-bucket
limiter. -/
theorem ratelimit_bucket_behaviour_witness :
    (runCalls (K := Nat) ⟨"per_minute", 2, 10, fun _ => none⟩ 3 [0, 1, 2]).1 =
        min 3 2 ∧
      ((RateLimitBucket.ratelimit (K := Nat) ⟨"b", 2, 10, fun k => if k = 3 then some (0, 2) else none⟩ 3 11).1 = none ∧
        (RateLimitBucket.ratelimit (K := Nat) ⟨"b", 2, 10, fun k => if k = 3 then some (0, 2) else none⟩ 3 11).2.entries 3 = some (11, 1)) ∧
      (limiterRatelimit (K := Nat)
          [⟨"a", 1, 10, fun _ => none⟩, ⟨"b", 0, 10, fun k => if k = 3 then some (0, 5) else none⟩] 3 4).1.isSome =
        [⟨"a", 1, 10, fun _ => none⟩,
          (⟨"b", 0, 10, fun k => if k = 3 then some (0, 5) else none⟩ : RateLimitBucket Nat)].any
          (fun b => (b.ratelimit 3 4).1.isSome) := by
  refine ⟨?_, ?_, ?_⟩
  · exact (ratelimit_bucket_behaviour (K := Nat)).1 _ 3 0 [0, 1, 2] (by decide)
      (by decide) (by decide)
  · exact (ratelimit_bucket_behaviour (K := Nat)).2.1 _ 3 0 2 11 (by decide) (by decide)
  · exact (ratelimit_bucket_behaviour (K := Nat)).2.2 _ 3 4

/-! ## Claim C5 -/

theorem drainLoop_complete (remaining : Nat) :
    ∀ s : List Nat, remaining ≤ s.length →
      drainLoop remaining s = some (s.drop remaining) := by
  induction remaining using Nat.strong_induction_on with
  | _ remaining ih =>
    intro s hle
    unfold drainLoop
    simp only [SKIP_BUFFER_SIZE]
    by_cases h0 : remaining = 0
    · subst h0
      simp
    · rw [if_neg h0]
      have hminle : min remaining 2048 ≤ remaining := Nat.min_le_left _ _
      have hgot : min (min remaining 2048) s.length = min remaining 2048 :=
        Nat.min_eq_left (le_trans hminle hle)
      have hpos : 0 < min remaining 2048 :=
        lt_min_iff.mpr ⟨Nat.pos_of_ne_zero h0, by norm_num⟩
      simp only [hgot]
      rw [dif_neg (Nat.pos_iff_ne_zero.mp hpos)]
      rw [ih (remaining - min remaining 2048) (Nat.sub_lt (Nat.pos_of_ne_zero h0) hpos) _
        (by
          rw [List.length_drop]
          exact Nat.sub_le_sub_right hle _)]
      rw [List.drop_drop]
      rw [Nat.add_sub_cancel' hminle]

/-- Claim C5 counterexample: on a frame declaring length
2 MiB + 1 = 2097153 with exactly that many following bytes, the
receiver drains all 2097153 bytes and fails, but the drained bytes are
read with a plain `read` that bypasses the cipher: the
receive-direction cipher state advances by 4 (the length prefix only),
not by the 4 + 2097153 bytes observed that the claim requires. -/
theorem recv_oversize_cipher_counterexample :
    recvMessage (fun _ _ => (Except.error "unused" : Except String Unit)) (some 0)
        (0 :: 32 :: 0 :: 1 :: List.replicate 2097153 7) =
      some ⟨Except.error "Messages bigger than 2 MB are not allowed.", some 4, []⟩ ∧
    (some 4 : Option Nat) ≠ some (4 + 2097153) := by
  constructor
  · have hlen : ¬ (0 :: 32 :: 0 :: 1 :: List.replicate 2097153 7 : List Nat).length < 4 := by
      rw [List.length_cons, List.length_cons, List.length_cons, List.length_cons]
      omega
    unfold recvMessage
    rw [if_neg hlen]
    have htake : (0 :: 32 :: 0 :: 1 :: List.replicate 2097153 7 : List Nat).take 4 =
        [0, 32, 0, 1] := rfl
    have hdrop : (0 :: 32 :: 0 :: 1 :: List.replicate 2097153 7 : List Nat).drop 4 =
        List.replicate 2097153 7 := rfl
    rw [htake, hdrop]
    have hsize : beToNat [0, 32, 0, 1] = 2097153 := rfl
    simp only [hsize, Option.map_some']
    rw [if_neg (by omega : ¬ (2097153 : Nat) = 0)]
    rw [if_pos (by unfold MAX_MESSAGE; omega : (2097153 : Nat) > MAX_MESSAGE)]
    rw [drainLoop_complete 2097153 (List.replicate 2097153 7)
      (by rw [List.length_replicate])]
    rw [List.drop_eq_nil_of_le (by rw [List.length_replicate])]
  · intro h
    have := Option.some.inj h
    omega

/-- Claim C5, amended: when a received frame declares length 0 the
receiver fails with an error; when it declares a length greater than
2 MiB the receiver drains exactly the advertised number of bytes from
the stream before failing; in both cases the receive-direction cipher
state is advanced by exactly the 4-byte length prefix and by nothing
else — the drained bytes are read outside the cipher, so after an
oversize frame the cipher is NOT advanced by the drained bytes (the
connection is closed right after, so no further reads observe the
desynchronized state). -/
theorem recv_message_length_checks {M : Type}
    (parseMsg : Nat → List Nat → Except String M) :
    (∀ (c b0 b1 b2 b3 : Nat) (rest : List Nat),
      beToNat [b0, b1, b2, b3] = 0 →
      recvMessage parseMsg (some c) (b0 :: b1 :: b2 :: b3 :: rest) =
        some ⟨Except.error "Message is empty", some (c + 4), rest⟩) ∧
    (∀ (c b0 b1 b2 b3 : Nat) (rest : List Nat),
      beToNat [b0, b1, b2, b3] > MAX_MESSAGE →
      beToNat [b0, b1, b2, b3] ≤ rest.length →
      recvMessage parseMsg (some c) (b0 :: b1 :: b2 :: b3 :: rest) =
        some ⟨Except.error "Messages bigger than 2 MB are not allowed.", some (c + 4),
          rest.drop (beToNat [b0, b1, b2, b3])⟩) := by
  constructor
  · intro c b0 b1 b2 b3 rest hzero
    have hlen : ¬ (b0 :: b1 :: b2 :: b3 :: rest).length < 4 := by
      rw [List.length_cons, List.length_cons, List.length_cons, List.length_cons]
      omega
    unfold recvMessage
    rw [if_neg hlen]
    have htake : (b0 :: b1 :: b2 :: b3 :: rest).take 4 = [b0, b1, b2, b3] := rfl
    have hdrop : (b0 :: b1 :: b2 :: b3 :: rest).drop 4 = rest := rfl
    rw [htake, hdrop]
    simp only [hzero, Option.map_some', if_true]
  · intro c b0 b1 b2 b3 rest hbig hfits
    have hlen : ¬ (b0 :: b1 :: b2 :: b3 :: rest).length < 4 := by
      rw [List.length_cons, List.length_cons, List.length_cons, List.length_cons]
      omega
    unfold recvMessage
    rw [if_neg hlen]
    have htake : (b0 :: b1 :: b2 :: b3 :: rest).take 4 = [b0, b1, b2, b3] := rfl
    have hdrop : (b0 :: b1 :: b2 :: b3 :: rest).drop 4 = rest := rfl
    rw [htake, hdrop]
    have hnz : ¬ beToNat [b0, b1, b2, b3] = 0 := by
      unfold MAX_MESSAGE at hbig
      omega
    simp only [Option.map_some']
    rw [if_neg hnz, if_pos hbig]
    rw [drainLoop_complete _ rest hfits]

/-- Claim C5 witness: the amended theorem applied to a concrete
zero-length frame and to a concrete frame of declared length
2 MiB + 1 followed by exactly that many bytes. -/
theorem recv_message_length_checks_witness :
    recvMessage (fun _ _ => (Except.error "unused" : Except String Unit)) (some 10)
        (0 :: 0 :: 0 :: 0 :: [1, 2, 3]) =
      some ⟨Except.error "Message is empty", some (10 + 4), [1, 2, 3]⟩ ∧
    recvMessage (fun _ _ => (Except.error "unused" : Except String Unit)) (some 10)
        (0 :: 32 :: 0 :: 1 :: List.replicate 2097153 7) =
      some ⟨Except.error "Messages bigger than 2 MB are not allowed.", some (10 + 4),
        (List.replicate 2097153 7).drop (beToNat [0, 32, 0, 1])⟩ := by
  constructor
  · exact (recv_message_length_checks _).1 10 0 0 0 0 [1, 2, 3] (by decide)
  · exact (recv_message_length_checks _).2 10 0 32 0 1 (List.replicate 2097153 7)
      (by decide) (by rw [List.length_replicate]; decide)

/-! ## Claims C6 and C10: codec bounds -/

theorem wordsInverseGo_bound (w : Word) :
    ∀ (xs : List Word) (i : Nat) (acc : Option Nat),
      (∀ j, acc = some j → j < i) →
      ∀ j, wordsInverseGo w i xs acc = some j → j < i + xs.length := by
  intro xs
  induction xs with
  | nil =>
    intro i acc hacc j hj
    simp only [wordsInverseGo] at hj
    have := hacc j hj
    omega
  | cons x xs ih =>
    intro i acc hacc j hj
    simp only [wordsInverseGo] at hj
    have hstep : ∀ j', (if toLowerWord x = toLowerWord w then some i else acc) = some j' →
        j' < i + 1 := by
      intro j' hj'
      by_cases hx : toLowerWord x = toLowerWord w
      · rw [if_pos hx] at hj'
        cases hj'
        omega
      · rw [if_neg hx] at hj'
        have := hacc j' hj'
        omega
    have := ih (i + 1) _ hstep j hj
    simp only [List.length_cons]
    omega

theorem wordsInverse_lt_length {words : List Word} {w : Word} {i : Nat}
    (h : wordsInverse words w = some i) : i < words.length := by
  have := wordsInverseGo_bound w words 0 none (by intro j hj; cases hj) i h
  omega

theorem digitVal36_lt {c d : Nat} (h : digitVal36 c = some d) : d < 36 := by
  unfold digitVal36 at h
  by_cases h1 : 48 ≤ c ∧ c ≤ 57
  · rw [if_pos h1] at h
    cases h
    omega
  · rw [if_neg h1] at h
    by_cases h2 : 65 ≤ c ∧ c ≤ 90
    · rw [if_pos h2] at h
      cases h
      omega
    · rw [if_neg h2] at h
      by_cases h3 : 97 ≤ c ∧ c ≤ 122
      · rw [if_pos h3] at h
        cases h
        omega
      · rw [if_neg h3] at h
        cases h

theorem radix36Go_bound :
    ∀ (digits : List Nat) (acc n : Nat),
      radix36Go digits acc = some n → n < (acc + 1) * 36 ^ digits.length := by
  intro digits
  induction digits with
  | nil =>
    intro acc n h
    simp only [radix36Go] at h
    cases h
    simp
  | cons c rest ih =>
    intro acc n h
    simp only [radix36Go] at h
    cases hd : digitVal36 c with
    | none => rw [hd] at h; cases h
    | some d =>
      rw [hd] at h
      dsimp only at h
      have hdlt : d < 36 := digitVal36_lt hd
      by_cases hov : acc * 36 + d ≥ U64_LIMIT
      · rw [if_pos hov] at h
        cases h
      · rw [if_neg hov] at h
        have := ih (acc * 36 + d) n h
        have hmono : (acc * 36 + d + 1) * 36 ^ rest.length ≤
            ((acc + 1) * 36) * 36 ^ rest.length := by
          apply Nat.mul_le_mul_right
          omega
        calc n < (acc * 36 + d + 1) * 36 ^ rest.length := this
          _ ≤ ((acc + 1) * 36) * 36 ^ rest.length := hmono
          _ = (acc + 1) * 36 ^ (rest.length + 1) := by ring
          _ = (acc + 1) * 36 ^ (c :: rest).length := by rw [List.length_cons]

theorem fromStrRadix36_bound {s : List Nat} {n : Nat} (hlen : s.length ≤ 9)
    (h : fromStrRadix36 s = some n) : n < 36 ^ 9 := by
  unfold fromStrRadix36 at h
  cases s with
  | nil => cases h
  | cons c rest =>
    simp only at h
    by_cases hc : c = 43
    · rw [if_pos hc] at h
      by_cases hr : (rest : List Nat) = []
      · rw [if_pos hr] at h
        cases h
      · rw [if_neg hr] at h
        have := radix36Go_bound rest 0 n h
        have hlb : (36:Nat) ^ rest.length ≤ 36 ^ 9 := by
          apply Nat.pow_le_pow_right (by omega)
          simp only [List.length_cons] at hlen
          omega
        omega
    · rw [if_neg hc] at h
      have hne : (c :: rest : List Nat) ≠ [] := by simp
      rw [if_neg hne] at h
      have := radix36Go_bound (c :: rest) 0 n h
      have hlb : (36:Nat) ^ (c :: rest).length ≤ 36 ^ 9 := by
        apply Nat.pow_le_pow_right (by omega)
        exact hlen
      omega

theorem lookupWordsGo_bound {words : List Word} (hw : words.length ≤ 2 ^ 14) :
    ∀ (toks : List Word) (result shift n : Nat),
      result < 2 ^ shift →
      lookupWordsGo words toks result shift = Except.ok n →
      n < 2 ^ (shift + 14 * toks.length) := by
  intro toks
  induction toks with
  | nil =>
    intro result shift n hres h
    simp only [lookupWordsGo] at h
    cases h
    simpa using hres
  | cons w rest ih =>
    intro result shift n hres h
    simp only [lookupWordsGo] at h
    cases hinv : wordsInverse words w with
    | none => rw [hinv] at h; cases h
    | some part =>
      rw [hinv] at h
      have hpart : part < 2 ^ 14 := lt_of_lt_of_le (wordsInverse_lt_length hinv) hw
      have hres' : result ||| part <<< shift < 2 ^ (shift + 14) := by
        have h1 : result + part * 2 ^ shift < (part + 1) * 2 ^ shift := by
          nlinarith [Nat.pos_pow_of_pos shift (show 0 < 2 by omega)]
        have h2 : (part + 1) * 2 ^ shift ≤ 2 ^ 14 * 2 ^ shift := by
          apply Nat.mul_le_mul_right
          omega
        calc result ||| part <<< shift = result + part * 2 ^ shift :=
              lor_shiftLeft_eq_add hres part
          _ < (part + 1) * 2 ^ shift := h1
          _ ≤ 2 ^ 14 * 2 ^ shift := h2
          _ = 2 ^ (shift + 14) := by rw [← Nat.pow_add]; ring_nf
      have := ih _ _ n hres' h
      have hexp : shift + 14 + 14 * rest.length = shift + 14 * (w :: rest).length := by
        simp only [List.length_cons]
        ring
      rw [hexp] at this
      exact this

theorem splitOnSep_ne_nil (sep : Nat) : ∀ s : List Nat, splitOnSep sep s ≠ [] := by
  intro s
  cases s with
  | nil => simp [splitOnSep]
  | cons c rest =>
    simp only [splitOnSep]
    by_cases hc : c = sep
    · rw [if_pos hc]
      simp
    · rw [if_neg hc]
      cases h : splitOnSep sep rest with
      | nil => simp
      | cons t ts => simp

theorem splitOnSep_length_of_mem (sep : Nat) :
    ∀ s : List Nat, sep ∈ s → 2 ≤ (splitOnSep sep s).length := by
  intro s
  induction s with
  | nil => intro h; cases h
  | cons c rest ih =>
    intro hmem
    simp only [splitOnSep]
    by_cases hc : c = sep
    · rw [if_pos hc]
      have := splitOnSep_ne_nil sep rest
      have : 1 ≤ (splitOnSep sep rest).length := by
        cases h : splitOnSep sep rest with
        | nil => exact absurd h this
        | cons t ts => simp
      simp only [List.length_cons]
      omega
    · rw [if_neg hc]
      have hrest : sep ∈ rest := by
        cases hmem with
        | head => exact absurd rfl hc
        | tail _ h => exact h
      have h2 := ih hrest
      cases h : splitOnSep sep rest with
      | nil => exact absurd h (splitOnSep_ne_nil sep rest)
      | cons t ts =>
        rw [h] at h2
        simp only [List.length_cons] at h2 ⊢
        omega

/-- Claim C6 counterexample: the nine-character token "zzzzzzzzz"
(nine bytes 122) is accepted by the parser and yields 36⁹ − 1 =
101559956668415, which is not below 2⁴² = 4398046511104. -/
theorem cid_parse_counterexample :
    fromStr [] (List.replicate 9 122) = Except.ok (36 ^ 9 - 1) ∧
      ¬ (36 ^ 9 - 1 : Nat) < 2 ^ 42 := by
  constructor
  · decide
  · decide

/-- Claim C6, amended: with a dictionary of at most 2¹⁴ words, every
string accepted by the ConnectionId parser yields an integer strictly
less than 36⁹, and a string containing '-' (hence taking the
three-dictionary-word path) yields an integer strictly less than 2⁴²;
the nine-character base-36 short form alone is NOT bounded by 2⁴² (it
accepts every value up to 36⁹ − 1 ≈ 2³⁷ · 2⁹·⁵). -/
theorem cid_parse_bound (words : List Word) (s : List Nat) (n : Nat)
    (hw : words.length ≤ 2 ^ 14)
    (hok : fromStr words s = Except.ok n) :
    n < 36 ^ 9 ∧ (45 ∈ s → n < 2 ^ 42) := by
  unfold fromStr at hok
  by_cases h3 : (splitOnSep 45 s).length ≠ 3
  · rw [if_pos h3] at hok
    by_cases h1 : (splitOnSep 45 s).length ≠ 1
    · rw [if_pos h1] at hok
      cases hok
    · rw [if_neg h1] at hok
      by_cases h9 : ((splitOnSep 45 s).headD []).length ≠ 9
      · rw [if_pos h9] at hok
        cases hok
      · rw [if_neg h9] at hok
        cases hpr : fromStrRadix36 ((splitOnSep 45 s).headD []) with
        | none => rw [hpr] at hok; cases hok
        | some v =>
          rw [hpr] at hok
          cases hok
          constructor
          · exact fromStrRadix36_bound (by omega) hpr
          · intro hmem
            have := splitOnSep_length_of_mem 45 s hmem
            omega
  · rw [if_neg h3] at hok
    push_neg at h3
    have hbound := lookupWordsGo_bound hw (splitOnSep 45 s) 0 0 n
      (by norm_num) hok
    rw [h3] at hbound
    norm_num at hbound
    constructor
    · calc n < 2 ^ 42 := hbound
        _ < 36 ^ 9 := by norm_num
    · intro _
      exact hbound

/-- Claim C6 witness: the amended bound applied to the concrete
nine-digit short form "000000042" (value 146 in base 36) with an empty
dictionary. -/
theorem cid_parse_bound_witness :
    (146 : Nat) < 36 ^ 9 ∧ (45 ∈ ([48, 48, 48, 48, 48, 48, 48, 52, 50] : List Nat) → (146:Nat) < 2 ^ 42) :=
  cid_parse_bound [] [48, 48, 48, 48, 48, 48, 48, 52, 50] 146 (by decide) (by decide)

theorem and_word_mask_eq_mod (x : Nat) : x &&& WORD_MASK = x % 2 ^ 14 := by
  have h : WORD_MASK = 2 ^ 14 - 1 := by decide
  rw [h]
  exact Nat.and_pow_two_sub_one_eq_mod x 14

theorem div_mod_two_pow_congr (a b n m : Nat) (h : n % 2 ^ (a + b) = m % 2 ^ (a + b)) :
    n / 2 ^ a % 2 ^ b = m / 2 ^ a % 2 ^ b := by
  have key : ∀ x : Nat, x / 2 ^ a % 2 ^ b = x % 2 ^ (a + b) / 2 ^ a % 2 ^ b := by
    intro x
    conv_lhs => rw [← Nat.div_add_mod x (2 ^ (a + b))]
    have hrw : 2 ^ (a + b) * (x / 2 ^ (a + b)) =
        2 ^ a * (2 ^ b * (x / 2 ^ (a + b))) := by
      rw [Nat.pow_add]
      ring
    rw [hrw]
    rw [Nat.mul_add_div (Nat.pos_pow_of_pos a (by omega))]
    rw [Nat.mul_add_mod]
  rw [key n, key m, h]

/-- Claim C10: ConnectionId rendering is total over all values: the
three word indexes are masked to 14 bits, so with a 16384-word
dictionary the indexings are always in bounds and `Display` produces a
string; and the rendered string depends only on the low 42 bits of the
value — two values congruent modulo 2⁴² render identically. -/
theorem display_total_low42 (words : List Word) (n m : Nat)
    (hw : words.length = 16384)
    (hcong : n % 2 ^ 42 = m % 2 ^ 42) :
    (n &&& WORD_MASK < 16384 ∧ (n >>> WORD_SHIFT) &&& WORD_MASK < 16384 ∧
      ((n >>> WORD_SHIFT) >>> WORD_SHIFT) &&& WORD_MASK < 16384) ∧
    (∃ s, display words n = some s) ∧
    display words n = display words m := by
  have hshift : ∀ (x k : Nat), x >>> k = x / 2 ^ k := fun x k =>
    Nat.shiftRight_eq_div_pow x k
  have hws : WORD_SHIFT = 14 := rfl
  have hb0 : n &&& WORD_MASK < 16384 := by
    rw [and_word_mask_eq_mod]
    exact Nat.mod_lt _ (by norm_num)
  have hb1 : (n >>> WORD_SHIFT) &&& WORD_MASK < 16384 := by
    rw [and_word_mask_eq_mod]
    exact Nat.mod_lt _ (by norm_num)
  have hb2 : ((n >>> WORD_SHIFT) >>> WORD_SHIFT) &&& WORD_MASK < 16384 := by
    rw [and_word_mask_eq_mod]
    exact Nat.mod_lt _ (by norm_num)
  have hi0 : n &&& WORD_MASK = m &&& WORD_MASK := by
    rw [and_word_mask_eq_mod, and_word_mask_eq_mod]
    have hdvd : (2:Nat) ^ 14 ∣ 2 ^ 42 := Nat.pow_dvd_pow 2 (by omega)
    calc n % 2 ^ 14 = n % 2 ^ 42 % 2 ^ 14 := (Nat.mod_mod_of_dvd n hdvd).symm
      _ = m % 2 ^ 42 % 2 ^ 14 := by rw [hcong]
      _ = m % 2 ^ 14 := Nat.mod_mod_of_dvd m hdvd
  have hi1 : (n >>> WORD_SHIFT) &&& WORD_MASK = (m >>> WORD_SHIFT) &&& WORD_MASK := by
    rw [and_word_mask_eq_mod, and_word_mask_eq_mod, hws, hshift, hshift]
    apply div_mod_two_pow_congr 14 14
    have hdvd : (2:Nat) ^ (14 + 14) ∣ 2 ^ 42 := Nat.pow_dvd_pow 2 (by omega)
    calc n % 2 ^ (14 + 14) = n % 2 ^ 42 % 2 ^ (14 + 14) := (Nat.mod_mod_of_dvd n hdvd).symm
      _ = m % 2 ^ 42 % 2 ^ (14 + 14) := by rw [hcong]
      _ = m % 2 ^ (14 + 14) := Nat.mod_mod_of_dvd m hdvd
  have hi2 : ((n >>> WORD_SHIFT) >>> WORD_SHIFT) &&& WORD_MASK =
      ((m >>> WORD_SHIFT) >>> WORD_SHIFT) &&& WORD_MASK := by
    rw [and_word_mask_eq_mod, and_word_mask_eq_mod, hws, hshift, hshift, hshift, hshift]
    rw [Nat.div_div_eq_div_mul, Nat.div_div_eq_div_mul, ← Nat.pow_add]
    apply div_mod_two_pow_congr 28 14
    have h42 : 28 + 14 = 42 := by omega
    rw [h42]
    exact hcong
  refine ⟨⟨hb0, hb1, hb2⟩, ?_, ?_⟩
  · have h0 : n &&& WORD_MASK < words.length := by omega
    have h1 : (n >>> WORD_SHIFT) &&& WORD_MASK < words.length := by omega
    have h2 : ((n >>> WORD_SHIFT) >>> WORD_SHIFT) &&& WORD_MASK < words.length := by omega
    refine ⟨words[n &&& WORD_MASK] ++ 45 :: words[(n >>> WORD_SHIFT) &&& WORD_MASK] ++
      45 :: words[((n >>> WORD_SHIFT) >>> WORD_SHIFT) &&& WORD_MASK], ?_⟩
    simp only [display]
    rw [List.getElem?_eq_getElem h0, List.getElem?_eq_getElem h1,
      List.getElem?_eq_getElem h2]
  · simp only [display]
    rw [hi0, hi1, hi2]

/-- Claim C10 witness: the totality-and-low-bits theorem applied to a
concrete 16384-word dictionary and the pair 2⁴² + 7 and 7, which are
congruent modulo 2⁴². -/
theorem display_total_low42_witness :
    (∃ s, display (List.replicate 16384 ([97] : Word)) (2 ^ 42 + 7) = some s) ∧
      display (List.replicate 16384 ([97] : Word)) (2 ^ 42 + 7) =
        display (List.replicate 16384 ([97] : Word)) 7 :=
  let h := display_total_low42 (List.replicate 16384 ([97] : Word)) (2 ^ 42 + 7) 7
    (by rw [List.length_replicate]) (by norm_num)
  ⟨h.2.1, h.2.2⟩

/-! ## Claims C2 and C3: registry lemmas -/

theorem swapRemove_cons {α : Type} (x : α) (xs : List α) (i : Nat) (h : xs ≠ []) :
    swapRemove (x :: xs) (i + 1) = x :: swapRemove xs i := by
  unfold swapRemove
  cases xs with
  | nil => exact absurd rfl h
  | cons y ys =>
    rw [List.getLast?_cons_cons]
    cases hg : (y :: ys).getLast? with
    | none => simp at hg
    | some a =>
      simp only [List.set_cons_succ]
      rw [List.dropLast_cons_of_ne_nil]
      intro hne
      have hlen : ((y :: ys).set i a).length = (y :: ys).length := List.length_set _ _ _
      rw [hne] at hlen
      simp at hlen

theorem swapRemove_perm {α : Type} :
    ∀ (l : List α) (i : Nat), i < l.length → List.Perm (swapRemove l i) (l.eraseIdx i) := by
  intro l
  induction l with
  | nil =>
    intro i h
    simp at h
  | cons x xs ih =>
    intro i h
    cases i with
    | zero =>
      cases hxs : xs with
      | nil =>
        simp [swapRemove]
      | cons y ys =>
        subst hxs
        show List.Perm (swapRemove (x :: y :: ys) 0) (y :: ys)
        unfold swapRemove
        rw [List.getLast?_cons_cons]
        cases hg : (y :: ys).getLast? with
        | none => simp at hg
        | some a =>
          simp only [List.set_cons_zero]
          rw [List.dropLast_cons_of_ne_nil (by simp)]
          have hyys : (y :: ys : List α) ≠ [] := by simp
          have hlast : (y :: ys).dropLast ++ [(y :: ys).getLast hyys] = y :: ys :=
            List.dropLast_concat_getLast hyys
          have hga : (y :: ys).getLast hyys = a := by
            have heq := List.getLast?_eq_getLast (y :: ys) hyys
            rw [hg] at heq
            exact (Option.some.inj heq).symm
          have hp1 : List.Perm (a :: (y :: ys).dropLast) ((y :: ys).dropLast ++ [a]) :=
            (List.perm_append_singleton a _).symm
          have hp2 : (y :: ys).dropLast ++ [a] = y :: ys := by rw [← hga]; exact hlast
          rw [hp2] at hp1
          exact hp1
    | succ i =>
      cases hxs : xs with
      | nil =>
        subst hxs
        simp at h
      | cons y ys =>
        subst hxs
        rw [swapRemove_cons x (y :: ys) i (by simp)]
        rw [List.eraseIdx_cons_succ]
        exact List.Perm.cons x (ih i (by simpa using h))

theorem removeById_perm (t : Nat) :
    ∀ l : List Conn, (l.map Conn.id).Nodup →
      List.Perm (removeById l t) (l.filter (fun x => ! (x.id == t))) := by
  intro l
  induction l with
  | nil =>
    intro _
    simp [removeById]
  | cons x xs ih =>
    intro hnd
    simp only [List.map_cons, List.nodup_cons] at hnd
    have hndx : x.id ∉ xs.map Conn.id := hnd.1
    have hndxs : (xs.map Conn.id).Nodup := hnd.2
    unfold removeById
    rw [List.findIdx?_cons]
    by_cases hx : (x.id == t) = true
    · rw [if_pos hx]
      have hxt : x.id = t := eq_of_beq hx
      have hperm0 : List.Perm (swapRemove (x :: xs) 0) xs := by
        have hp := swapRemove_perm (x :: xs) 0 (by simp)
        simpa using hp
      have hfilter : List.filter (fun y => ! (y.id == t)) (x :: xs) = xs := by
        rw [List.filter_cons]
        have hxfalse : (! (x.id == t)) = false := by
          simp [hx]
        rw [hxfalse]
        simp only [Bool.false_eq_true, if_false]
        apply List.filter_eq_self.mpr
        intro y hy
        have hyne : y.id ≠ t := by
          intro hyt
          apply hndx
          rw [hxt, ← hyt]
          exact List.mem_map_of_mem Conn.id hy
        simp [hyne]
      rw [hfilter]
      exact hperm0
    · rw [if_neg hx]
      have hxne : x.id ≠ t := by
        intro hxt
        exact hx (by simp [hxt])
      rw [List.findIdx?_succ]
      have hfcons : List.filter (fun y => ! (y.id == t)) (x :: xs) =
          x :: List.filter (fun y => ! (y.id == t)) xs := by
        rw [List.filter_cons]
        have : (! (x.id == t)) = true := by simp [hxne]
        rw [this]
        simp
      rw [hfcons]
      cases hq : List.findIdx? (fun y => y.id == t) xs with
      | none =>
        simp only [hq, Option.map_none']
        have hih := ih hndxs
        unfold removeById at hih
        rw [hq] at hih
        exact List.Perm.cons x hih
      | some q =>
        simp only [hq, Option.map_some']
        have hxsne : xs ≠ [] := by
          intro hnil
          rw [hnil] at hq
          simp at hq
        rw [swapRemove_cons x xs q hxsne]
        have hih := ih hndxs
        unfold removeById at hih
        rw [hq] at hih
        exact List.Perm.cons x hih

theorem removeById_mem {l : List Conn} {t : Nat} (h : (l.map Conn.id).Nodup) {x : Conn} :
    x ∈ removeById l t ↔ x ∈ l ∧ x.id ≠ t := by
  rw [(removeById_perm t l h).mem_iff, List.mem_filter]
  simp

theorem removeById_ids_nodup {l : List Conn} {t : Nat} (h : (l.map Conn.id).Nodup) :
    ((removeById l t).map Conn.id).Nodup := by
  have hperm := (removeById_perm t l h).map Conn.id
  rw [hperm.nodup_iff]
  exact ((List.filter_sublist l).map Conn.id).nodup h

theorem runSet_append_one (ops : List SetOp) (op : SetOp) :
    runSet (ops ++ [op]) = applySetOp (runSet ops) op := by
  unfold runSet
  rw [List.foldl_append]
  rfl

theorem runAdds_char_step (s : ConnectionSet) (cs : List Conn) (c : Conn)
    (hconn : ∀ i, s.connections i = cs.find? (fun x => x.id == i))
    (hbucket : ∀ u, s.byUserId u = cs.filter (fun x => x.user == u))
    (hfresh : c.id ∉ cs.map Conn.id) :
    (∀ i, ((s.add c).1).connections i = (cs ++ [c]).find? (fun x => x.id == i)) ∧
    (∀ u, ((s.add c).1).byUserId u = (cs ++ [c]).filter (fun x => x.user == u)) := by
  have hnone : s.connections c.id = none := by
    rw [hconn]
    apply List.find?_eq_none.mpr
    intro x hx hbeq
    exact hfresh (eq_of_beq hbeq ▸ List.mem_map_of_mem Conn.id hx)
  have hadd : (s.add c).1 = s.addForce c := by
    unfold ConnectionSet.add
    rw [hnone]
    simp
  have hforce : s.addForce c =
      { connections := updMap s.connections c.id (some c)
        byUser := updMap s.byUser c.user
          (some (cs.filter (fun x => x.user == c.user) ++ [c])) } := by
    unfold ConnectionSet.addForce
    rw [hnone]
    have hgetd : (s.byUser c.user).getD [] = cs.filter (fun x => x.user == c.user) :=
      hbucket c.user
    rw [hgetd]
  rw [hadd, hforce]
  constructor
  · intro i
    show updMap s.connections c.id (some c) i = _
    unfold updMap
    rw [List.find?_append]
    by_cases hi : i = c.id
    · rw [if_pos hi]
      have h1 : cs.find? (fun x => x.id == i) = none := by
        apply List.find?_eq_none.mpr
        intro x hx hbeq
        apply hfresh
        rw [← hi, ← eq_of_beq hbeq]
        exact List.mem_map_of_mem Conn.id hx
      rw [h1]
      have h2 : [c].find? (fun x => x.id == i) = some c := by
        rw [List.find?_singleton]
        rw [if_pos (by rw [hi]; exact beq_self_eq_true c.id)]
      rw [h2]
      rfl
    · rw [if_neg hi]
      have h2 : [c].find? (fun x => x.id == i) = none := by
        rw [List.find?_singleton]
        rw [if_neg (by simp; intro hc; exact hi hc.symm)]
      rw [h2, hconn i, Option.or_none]
  · intro u
    show (updMap s.byUser c.user
      (some (cs.filter (fun x => x.user == c.user) ++ [c])) u).getD [] = _
    unfold updMap
    rw [List.filter_append]
    by_cases hu : u = c.user
    · rw [if_pos hu, Option.getD_some, hu]
      simp
    · rw [if_neg hu]
      have hcu : (c.user == u) = false := by
        simp only [beq_eq_false_iff_ne]
        intro hc
        exact hu hc.symm
      have h2 : [c].filter (fun x => x.user == u) = [] := by
        simp [hcu]
      rw [h2, List.append_nil]
      exact hbucket u

theorem runAdds_char (cs : List Conn) (hnd : (cs.map Conn.id).Nodup) :
    (∀ i, (runSet (cs.map SetOp.add)).connections i = cs.find? (fun x => x.id == i)) ∧
    (∀ u, (runSet (cs.map SetOp.add)).byUserId u = cs.filter (fun x => x.user == u)) := by
  induction cs using List.reverseRecOn with
  | nil =>
    constructor
    · intro i
      rfl
    · intro u
      rfl
  | append_singleton cs c ih =>
    rw [List.map_append] at hnd
    have hsplit := List.nodup_append.mp hnd
    have hnd' : (cs.map Conn.id).Nodup := hsplit.1
    have hfresh : c.id ∉ cs.map Conn.id := by
      intro hmem
      exact hsplit.2.2 hmem (by simp)
    have hprev := ih hnd'
    have hrun : runSet ((cs ++ [c]).map SetOp.add) =
        applySetOp (runSet (cs.map SetOp.add)) (SetOp.add c) := by
      rw [List.map_append]
      exact runSet_append_one _ _
    rw [hrun]
    exact runAdds_char_step _ cs c hprev.1 hprev.2 hfresh

/-- Claim C3 counterexample: for one user, add connections with ids 1,
2, 3 in that order, then remove id 1.  `swap_remove` moves the last
element into the freed slot, so the bucket becomes [id 3, id 2]: the
returned list is not in insertion order, and its last element is the
id-2 connection even though the id-3 connection was added later and is
still live — `RequestJoin` would forward to the wrong connection. -/
theorem by_user_id_order_counterexample :
    (runSet [SetOp.add ⟨1, 5⟩, SetOp.add ⟨2, 5⟩, SetOp.add ⟨3, 5⟩,
        SetOp.remove ⟨1, 5⟩]).byUserId 5 = [⟨3, 5⟩, ⟨2, 5⟩] ∧
    ((runSet [SetOp.add ⟨1, 5⟩, SetOp.add ⟨2, 5⟩, SetOp.add ⟨3, 5⟩,
        SetOp.remove ⟨1, 5⟩]).byUserId 5).getLast? = some ⟨2, 5⟩ ∧
    (runSet [SetOp.add ⟨1, 5⟩, SetOp.add ⟨2, 5⟩, SetOp.add ⟨3, 5⟩,
        SetOp.remove ⟨1, 5⟩]).byId 3 = some ⟨3, 5⟩ ∧
    (⟨2, 5⟩ : Conn) ≠ ⟨3, 5⟩ := by
  refine ⟨by decide, by decide, by decide, by decide⟩

/-- Claim C3, amended: for sequences consisting only of `add`
operations with pairwise distinct ids, `by_user_id` returns each user's
connections in insertion order (it equals the insertion sequence
filtered to that user), so its last element is the most recently added
connection for the user.  After a `remove` (or an `add_force` eviction)
the order can deviate from insertion order, because the bucket uses
swap-removal: the last element is moved into the freed slot, so the
last element of `by_user_id` — the connection `RequestJoin` forwards
to — need not be the most recently added live connection (see the
counterexample). -/
theorem by_user_id_insertion_order (cs : List Conn) (u : Nat)
    (hnd : (cs.map Conn.id).Nodup) :
    (runSet (cs.map SetOp.add)).byUserId u = cs.filter (fun c => c.user == u) :=
  (runAdds_char cs hnd).2 u

/-- Claim C3 witness: the insertion-order theorem applied to a concrete
add-only sequence. -/
theorem by_user_id_insertion_order_witness :
    (runSet (([⟨1, 5⟩, ⟨2, 5⟩, ⟨3, 7⟩] : List Conn).map SetOp.add)).byUserId 5 =
      ([⟨1, 5⟩, ⟨2, 5⟩, ⟨3, 7⟩] : List Conn).filter (fun c => c.user == 5) :=
  by_user_id_insertion_order [⟨1, 5⟩, ⟨2, 5⟩, ⟨3, 7⟩] 5 (by decide)

theorem regInv_empty : RegInv emptySet := by
  constructor
  · intro u l hul
    cases hul
  · intro i c hc
    cases hc

theorem addForce_preserves (s : ConnectionSet) (c : Conn) (hinv : RegInv s)
    (hcompat : ∀ o, s.connections c.id = some o → o.user = c.user) :
    RegInv (s.addForce c) := by
  obtain ⟨hA, hB⟩ := hinv
  cases hold : s.connections c.id with
  | none =>
    have hstate : s.addForce c =
        { connections := updMap s.connections c.id (some c)
          byUser := updMap s.byUser c.user
            (some ((s.byUser c.user).getD [] ++ [c])) } := by
      unfold ConnectionSet.addForce
      rw [hold]
    rw [hstate]
    have hbid : ∀ x ∈ (s.byUser c.user).getD [], x.user = c.user ∧
        s.connections x.id = some x := by
      cases hb : s.byUser c.user with
      | none =>
        intro x hx
        rw [Option.getD_none] at hx
        cases hx
      | some b =>
        intro x hx
        rw [Option.getD_some] at hx
        exact (hA c.user b hb).2.2 x hx
    constructor
    · intro u l hul
      simp only [updMap] at hul
      by_cases hu : u = c.user
      · rw [if_pos hu] at hul
        cases hul
        refine ⟨by simp, ?_, ?_⟩
        · rw [List.map_append]
          rw [List.nodup_append]
          refine ⟨?_, by simp, ?_⟩
          · cases hb : s.byUser c.user with
            | none => simp
            | some b =>
              rw [Option.getD_some]
              exact (hA c.user b hb).2.1
          · intro a ha hamem
            have hax : ∃ x ∈ (s.byUser c.user).getD [], x.id = a := by
              rcases List.mem_map.mp ha with ⟨x, hx, hxa⟩
              exact ⟨x, hx, hxa⟩
            rcases hax with ⟨x, hx, hxa⟩
            have := (hbid x hx).2
            have hac : a = c.id := by simpa using hamem
            rw [hxa, hac] at this
            rw [hold] at this
            cases this
        · intro x hx
          rcases List.mem_append.mp hx with hx1 | hx2
          · have h1 := hbid x hx1
            refine ⟨hu ▸ h1.1, ?_⟩
            show updMap s.connections c.id (some c) x.id = some x
            unfold updMap
            rw [if_neg ?_]
            · exact h1.2
            · intro hxc
              rw [hxc] at h1
              rw [hold] at h1
              cases h1.2
          · have hxc : x = c := by simpa using hx2
            refine ⟨?_, ?_⟩
            · rw [hxc]
              exact hu.symm
            · show updMap s.connections c.id (some c) x.id = some x
              unfold updMap
              rw [hxc]
              rw [if_pos rfl]
      · rw [if_neg hu] at hul
        have hprops := hA u l hul
        refine ⟨hprops.1, hprops.2.1, ?_⟩
        intro x hx
        have h1 := hprops.2.2 x hx
        refine ⟨h1.1, ?_⟩
        show updMap s.connections c.id (some c) x.id = some x
        unfold updMap
        rw [if_neg ?_]
        · exact h1.2
        · intro hxc
          rw [hxc] at h1
          rw [hold] at h1
          cases h1.2
    · intro i c' hc'
      simp only [updMap] at hc'
      by_cases hi : i = c.id
      · rw [if_pos hi] at hc'
        cases hc'
        refine ⟨hi.symm, ?_⟩
        refine ⟨(s.byUser c.user).getD [] ++ [c], ?_, by simp⟩
        show updMap s.byUser c.user (some ((s.byUser c.user).getD [] ++ [c])) c.user = _
        unfold updMap
        rw [if_pos rfl]
      · rw [if_neg hi] at hc'
        have h1 := hB i c' hc'
        rcases h1 with ⟨hid, l, hl, hmem⟩
        refine ⟨hid, ?_⟩
        by_cases hcu : c'.user = c.user
        · refine ⟨(s.byUser c.user).getD [] ++ [c], ?_, ?_⟩
          · show updMap s.byUser c.user (some ((s.byUser c.user).getD [] ++ [c])) c'.user = _
            unfold updMap
            rw [if_pos hcu]
          · apply List.mem_append_left
            rw [hcu] at hl
            rw [hl, Option.getD_some]
            exact hmem
        · refine ⟨l, ?_, hmem⟩
          show updMap s.byUser c.user (some ((s.byUser c.user).getD [] ++ [c])) c'.user = _
          unfold updMap
          rw [if_neg hcu]
          exact hl
  | some o =>
    have huser : o.user = c.user := hcompat o hold
    obtain ⟨hoid, bo, hbo, homem⟩ := hB c.id o hold
    have hbcu : s.byUser c.user = some bo := huser ▸ hbo
    have hstate : s.addForce c =
        { connections := updMap s.connections c.id (some c)
          byUser := updMap s.byUser c.user
            (some (removeById bo o.id ++ [c])) } := by
      unfold ConnectionSet.addForce
      rw [hold, hbcu]
      rfl
    have hboprops := hA c.user bo hbcu
    have hbnodup : (bo.map Conn.id).Nodup := hboprops.2.1
    have hrem_mem : ∀ x, x ∈ removeById bo o.id ↔ x ∈ bo ∧ x.id ≠ o.id := by
      intro x
      exact removeById_mem hbnodup
    rw [hstate]
    constructor
    · intro u l hul
      simp only [updMap] at hul
      by_cases hu : u = c.user
      · rw [if_pos hu] at hul
        cases hul
        refine ⟨by simp, ?_, ?_⟩
        · rw [List.map_append]
          rw [List.nodup_append]
          refine ⟨removeById_ids_nodup hbnodup, by simp, ?_⟩
          intro a ha hamem
          rcases List.mem_map.mp ha with ⟨x, hx, hxa⟩
          have hx2 := (hrem_mem x).mp hx
          have hac : a = c.id := by simpa using hamem
          apply hx2.2
          rw [hxa, hac, hoid]
        · intro x hx
          rcases List.mem_append.mp hx with hx1 | hx2
          · have hx2 := (hrem_mem x).mp hx1
            have h1 := hboprops.2.2 x hx2.1
            refine ⟨hu ▸ h1.1, ?_⟩
            show updMap s.connections c.id (some c) x.id = some x
            unfold updMap
            rw [if_neg ?_]
            · exact h1.2
            · intro hxc
              apply hx2.2
              rw [hxc, ← hoid]
          · have hxc : x = c := by simpa using hx2
            refine ⟨?_, ?_⟩
            · rw [hxc]
              exact hu.symm
            · show updMap s.connections c.id (some c) x.id = some x
              unfold updMap
              rw [hxc]
              rw [if_pos rfl]
      · rw [if_neg hu] at hul
        have hprops := hA u l hul
        refine ⟨hprops.1, hprops.2.1, ?_⟩
        intro x hx
        have h1 := hprops.2.2 x hx
        refine ⟨h1.1, ?_⟩
        show updMap s.connections c.id (some c) x.id = some x
        unfold updMap
        rw [if_neg ?_]
        · exact h1.2
        · intro hxc
          have hxo : x = o := by
            rw [hxc] at h1
            rw [hold] at h1
            exact (Option.some.inj h1.2).symm
          apply hu
          rw [← h1.1, hxo, huser]
    · intro i c' hc'
      simp only [updMap] at hc'
      by_cases hi : i = c.id
      · rw [if_pos hi] at hc'
        cases hc'
        refine ⟨hi.symm, removeById bo o.id ++ [c], ?_, by simp⟩
        show updMap s.byUser c.user (some (removeById bo o.id ++ [c])) c.user = _
        unfold updMap
        rw [if_pos rfl]
      · rw [if_neg hi] at hc'
        have h1 := hB i c' hc'
        rcases h1 with ⟨hid, l, hl, hmem⟩
        refine ⟨hid, ?_⟩
        by_cases hcu : c'.user = c.user
        · refine ⟨removeById bo o.id ++ [c], ?_, ?_⟩
          · show updMap s.byUser c.user (some (removeById bo o.id ++ [c])) c'.user = _
            unfold updMap
            rw [if_pos hcu]
          · apply List.mem_append_left
            apply (hrem_mem c').mpr
            have hlbo : l = bo := by
              rw [hcu] at hl
              exact Option.some.inj (hl.symm.trans hbcu)
            refine ⟨hlbo ▸ hmem, ?_⟩
            rw [hid, hoid]
            exact hi
        · refine ⟨l, ?_, hmem⟩
          show updMap s.byUser c.user (some (removeById bo o.id ++ [c])) c'.user = _
          unfold updMap
          rw [if_neg hcu]
          exact hl

theorem remove_preserves (s : ConnectionSet) (c : Conn) (hinv : RegInv s)
    (hcompat : ∀ o, s.connections c.id = some o → o.user = c.user) :
    RegInv (s.remove c) := by
  obtain ⟨hA, hB⟩ := hinv
  cases hbu : s.byUser c.user with
  | none =>
    have hconn_none : s.connections c.id = none := by
      cases hoc : s.connections c.id with
      | none => rfl
      | some o =>
        have huser := hcompat o hoc
        obtain ⟨_, l, hl, _⟩ := hB c.id o hoc
        rw [huser, hbu] at hl
        cases hl
    have hstate : s.remove c =
        { connections := updMap s.connections c.id none, byUser := s.byUser } := by
      unfold ConnectionSet.remove
      rw [hbu]
    rw [hstate]
    constructor
    · intro u l hul
      have hprops := hA u l hul
      refine ⟨hprops.1, hprops.2.1, ?_⟩
      intro x hx
      have h1 := hprops.2.2 x hx
      refine ⟨h1.1, ?_⟩
      show updMap s.connections c.id none x.id = some x
      unfold updMap
      rw [if_neg ?_]
      · exact h1.2
      · intro hxc
        rw [hxc, hconn_none] at h1
        cases h1.2
    · intro i c' hc'
      simp only [updMap] at hc'
      by_cases hi : i = c.id
      · rw [if_pos hi] at hc'
        cases hc'
      · rw [if_neg hi] at hc'
        exact hB i c' hc'
  | some bucket =>
    have hbprops := hA c.user bucket hbu
    have hbnodup := hbprops.2.1
    have hrem_mem : ∀ x : Conn, x ∈ removeById bucket c.id ↔ x ∈ bucket ∧ x.id ≠ c.id :=
      fun x => removeById_mem hbnodup
    have hkey : ∀ u l (x : Conn), s.byUser u = some l → x ∈ l → x.id = c.id →
        u = c.user := by
      intro u l x hl hx hxid
      have h1 := (hA u l hl).2.2 x hx
      have h2 : s.connections c.id = some x := by
        rw [← hxid]
        exact h1.2
      rw [← h1.1]
      exact hcompat x h2
    have hstate : s.remove c =
        { connections := updMap s.connections c.id none
          byUser :=
            if (removeById bucket c.id).isEmpty then updMap s.byUser c.user none
            else updMap s.byUser c.user (some (removeById bucket c.id)) } := by
      unfold ConnectionSet.remove
      rw [hbu]
    rw [hstate]
    by_cases hemp : (removeById bucket c.id).isEmpty
    · rw [if_pos hemp]
      have hempty : removeById bucket c.id = [] := List.isEmpty_iff.mp hemp
      constructor
      · intro u l hul
        simp only [updMap] at hul
        by_cases hu : u = c.user
        · rw [if_pos hu] at hul
          cases hul
        · rw [if_neg hu] at hul
          have hprops := hA u l hul
          refine ⟨hprops.1, hprops.2.1, ?_⟩
          intro x hx
          have h1 := hprops.2.2 x hx
          refine ⟨h1.1, ?_⟩
          show updMap s.connections c.id none x.id = some x
          unfold updMap
          rw [if_neg ?_]
          · exact h1.2
          · intro hxc
            exact hu (hkey u l x hul hx hxc)
      · intro i c' hc'
        simp only [updMap] at hc'
        by_cases hi : i = c.id
        · rw [if_pos hi] at hc'
          cases hc'
        · rw [if_neg hi] at hc'
          obtain ⟨hid, l, hl, hmem⟩ := hB i c' hc'
          by_cases hcu : c'.user = c.user
          · exfalso
            have hlbucket : l = bucket := by
              rw [hcu] at hl
              exact Option.some.inj (hl.symm.trans hbu)
            have hc'mem : c' ∈ removeById bucket c.id := by
              apply (hrem_mem c').mpr
              refine ⟨hlbucket ▸ hmem, ?_⟩
              rw [hid]
              exact hi
            rw [hempty] at hc'mem
            cases hc'mem
          · refine ⟨hid, l, ?_, hmem⟩
            show updMap s.byUser c.user none c'.user = some l
            unfold updMap
            rw [if_neg hcu]
            exact hl
    · rw [if_neg hemp]
      have hne : removeById bucket c.id ≠ [] := by
        intro hnil
        exact hemp (by rw [hnil]; rfl)
      constructor
      · intro u l hul
        simp only [updMap] at hul
        by_cases hu : u = c.user
        · rw [if_pos hu] at hul
          cases hul
          refine ⟨hne, removeById_ids_nodup hbnodup, ?_⟩
          intro x hx
          have hx2 := (hrem_mem x).mp hx
          have h1 := hbprops.2.2 x hx2.1
          refine ⟨hu ▸ h1.1, ?_⟩
          show updMap s.connections c.id none x.id = some x
          unfold updMap
          rw [if_neg hx2.2]
          exact h1.2
        · rw [if_neg hu] at hul
          have hprops := hA u l hul
          refine ⟨hprops.1, hprops.2.1, ?_⟩
          intro x hx
          have h1 := hprops.2.2 x hx
          refine ⟨h1.1, ?_⟩
          show updMap s.connections c.id none x.id = some x
          unfold updMap
          rw [if_neg ?_]
          · exact h1.2
          · intro hxc
            exact hu (hkey u l x hul hx hxc)
      · intro i c' hc'
        simp only [updMap] at hc'
        by_cases hi : i = c.id
        · rw [if_pos hi] at hc'
          cases hc'
        · rw [if_neg hi] at hc'
          obtain ⟨hid, l, hl, hmem⟩ := hB i c' hc'
          by_cases hcu : c'.user = c.user
          · refine ⟨hid, removeById bucket c.id, ?_, ?_⟩
            · show updMap s.byUser c.user (some (removeById bucket c.id)) c'.user = _
              unfold updMap
              rw [if_pos hcu]
            · apply (hrem_mem c').mpr
              have hlbucket : l = bucket := by
                rw [hcu] at hl
                exact Option.some.inj (hl.symm.trans hbu)
              refine ⟨hlbucket ▸ hmem, ?_⟩
              rw [hid]
              exact hi
          · refine ⟨hid, l, ?_, hmem⟩
            show updMap s.byUser c.user (some (removeById bucket c.id)) c'.user = some l
            unfold updMap
            rw [if_neg hcu]
            exact hl

theorem applySetOp_preserves (s : ConnectionSet) (op : SetOp) (hinv : RegInv s)
    (hc : opCompatible s op = true) : RegInv (applySetOp s op) := by
  cases op with
  | add c =>
    show RegInv (s.add c).1
    unfold ConnectionSet.add
    by_cases hp : (s.connections c.id).isSome = true
    · rw [if_pos hp]
      exact hinv
    · rw [if_neg hp]
      show RegInv (s.addForce c)
      apply addForce_preserves s c hinv
      intro o ho
      rw [ho] at hp
      simp at hp
  | addForce c =>
    apply addForce_preserves s c hinv
    intro o ho
    unfold opCompatible at hc
    dsimp only at hc
    rw [ho] at hc
    exact eq_of_beq hc
  | remove c =>
    apply remove_preserves s c hinv
    intro o ho
    unfold opCompatible at hc
    dsimp only at hc
    rw [ho] at hc
    exact eq_of_beq hc

theorem seq_preserves : ∀ (ops : List SetOp) (s : ConnectionSet), RegInv s →
    seqCompatible s ops = true → RegInv (ops.foldl applySetOp s) := by
  intro ops
  induction ops with
  | nil =>
    intro s h _
    simpa using h
  | cons op rest ih =>
    intro s hinv hc
    unfold seqCompatible at hc
    rw [Bool.and_eq_true] at hc
    rw [List.foldl_cons]
    exact ih (applySetOp s op) (applySetOp_preserves s op hinv hc.1) hc.2

/-- Claim C2 counterexample: register a connection with id 1 for user
10, then `add_force` a connection with the same id 1 but user 20.
`add_force` only searches the *newcomer's* user bucket (user 20) for
the displaced id, so the old connection stays in user 10's bucket while
by-id lookup now returns the new connection: (R1) is violated. -/
theorem registry_invariants_counterexample :
    ¬ RegInv (runSet [SetOp.add ⟨1, 10⟩, SetOp.addForce ⟨1, 20⟩]) := by
  intro h
  have hbucket : (runSet [SetOp.add ⟨1, 10⟩, SetOp.addForce ⟨1, 20⟩]).byUser 10 =
      some [⟨1, 10⟩] := by decide
  have h2 := (h.1 10 [⟨1, 10⟩] hbucket).2.2 ⟨1, 10⟩ (by simp)
  have h3 := h2.2
  have h4 : (⟨1, 10⟩ : Conn).id = 1 := rfl
  rw [h4] at h3
  have hconn : (runSet [SetOp.add ⟨1, 10⟩, SetOp.addForce ⟨1, 20⟩]).connections 1 =
      some ⟨1, 20⟩ := by decide
  have h5 := hconn.symm.trans h3
  simp at h5

/-- Claim C2, amended: the registry invariants (R1) every connection
stored in a user bucket is the connection returned by by-id lookup and
vice versa (with buckets keyed by their members' user id), (R2) at most
one stored connection per id (bucket ids are duplicate-free), and (R3)
a bucket is deleted as soon as its last member is removed, hold after
any sequence of add, add_force and remove operations in which every
add_force or remove whose connection id is currently registered agrees
with the incumbent on the user id.  When an add_force replaces an
incumbent whose user id differs from the newcomer's, the incumbent is
left dangling in its old user bucket (it is searched for only in the
newcomer's bucket) and (R1) fails — see the counterexample. -/
theorem registry_invariants (ops : List SetOp)
    (hc : seqCompatible emptySet ops = true) : RegInv (runSet ops) :=
  seq_preserves ops emptySet regInv_empty hc

/-- Claim C2 witness: the amended theorem applied to a concrete
user-compatible sequence exercising add, a same-user add_force
replacement, and remove with bucket GC. -/
theorem registry_invariants_witness :
    RegInv (runSet [SetOp.add ⟨1, 10⟩, SetOp.addForce ⟨1, 10⟩, SetOp.add ⟨2, 10⟩,
      SetOp.remove ⟨1, 10⟩]) :=
  registry_invariants
    [SetOp.add ⟨1, 10⟩, SetOp.addForce ⟨1, 10⟩, SetOp.add ⟨2, 10⟩, SetOp.remove ⟨1, 10⟩]
    (by decide)

/-! ## Claim C4: friend-request store lemmas -/

theorem awcl_spec {α : Type} [DecidableEq α] (set : List α) (key : α) (lim : Nat)
    (hnd : set.Nodup) (hlen : set.length ≤ lim) (hlim : 1 ≤ lim) :
    (addWithCircleLimit set key lim).1.Nodup ∧
    (addWithCircleLimit set key lim).1.length ≤ lim ∧
    key ∈ (addWithCircleLimit set key lim).1 ∧
    (match (addWithCircleLimit set key lim).2 with
     | none => ∀ y, y ∈ (addWithCircleLimit set key lim).1 ↔ y ∈ set ∨ y = key
     | some e => e ∈ set ∧ e ≠ key ∧
        ∀ y, y ∈ (addWithCircleLimit set key lim).1 ↔ (y ∈ set ∧ y ≠ e) ∨ y = key) := by
  unfold addWithCircleLimit
  by_cases hmem : key ∈ set
  · rw [if_pos hmem]
    dsimp only
    have hknd : key ∉ set.erase key := by
      intro hk
      exact (hnd.mem_erase_iff.mp hk).1 rfl
    have hnde : (set.erase key).Nodup := hnd.erase key
    have hlene : (set.erase key).length = set.length - 1 :=
      List.length_erase_of_mem hmem
    have hpos : 0 < set.length := List.length_pos_of_mem hmem
    refine ⟨?_, ?_, ?_, ?_⟩
    · rw [List.nodup_append]
      refine ⟨hnde, List.nodup_singleton key, ?_⟩
      intro a ha hb
      rw [List.mem_singleton] at hb
      rw [hb] at ha
      exact hknd ha
    · rw [List.length_append, List.length_singleton, hlene]
      omega
    · exact List.mem_append_right _ (List.mem_singleton_self key)
    · intro y
      rw [List.mem_append, List.mem_singleton, hnd.mem_erase_iff]
      constructor
      · intro hy
        rcases hy with ⟨_, hy⟩ | hy
        · exact Or.inl hy
        · exact Or.inr hy
      · intro hy
        rcases hy with hy | hy
        · by_cases hyk : y = key
          · exact Or.inr hyk
          · exact Or.inl ⟨hyk, hy⟩
        · exact Or.inr hy
  · rw [if_neg hmem]
    by_cases hbig : (set ++ [key]).length > lim
    · rw [if_pos hbig]
      rw [List.length_append, List.length_singleton] at hbig
      have hfull : set.length = lim := by omega
      cases hset : set with
      | nil =>
        exfalso
        rw [hset] at hfull
        simp at hfull
        omega
      | cons e xs =>
        subst hset
        simp only [List.cons_append]
        have hnd2 : xs.Nodup := (List.nodup_cons.mp hnd).2
        have hexs : e ∉ xs := (List.nodup_cons.mp hnd).1
        have hkxs : key ∉ xs := fun hk => hmem (List.mem_cons_of_mem e hk)
        have hkne : e ≠ key := fun he => hmem (he ▸ List.mem_cons_self e xs)
        refine ⟨?_, ?_, ?_, ?_⟩
        · show (xs ++ [key]).Nodup
          rw [List.nodup_append]
          refine ⟨hnd2, List.nodup_singleton key, ?_⟩
          intro a ha hb
          rw [List.mem_singleton] at hb
          rw [hb] at ha
          exact hkxs ha
        · show (xs ++ [key]).length ≤ lim
          rw [List.length_append, List.length_singleton]
          simp only [List.length_cons] at hfull
          omega
        · exact List.mem_append_right xs (List.mem_singleton_self key)
        · show e ∈ e :: xs ∧ e ≠ key ∧
            ∀ y, y ∈ xs ++ [key] ↔ (y ∈ e :: xs ∧ y ≠ e) ∨ y = key
          refine ⟨List.mem_cons_self e xs, hkne, ?_⟩
          intro y
          rw [List.mem_append, List.mem_singleton, List.mem_cons]
          constructor
          · intro hy
            rcases hy with hy | hy
            · exact Or.inl ⟨Or.inr hy, fun hye => hexs (hye ▸ hy)⟩
            · exact Or.inr hy
          · intro hy
            rcases hy with ⟨hy1, hy2⟩ | hy
            · rcases hy1 with hy1 | hy1
              · exact absurd hy1 hy2
              · exact Or.inl hy1
            · exact Or.inr hy
    · rw [if_neg hbig]
      refine ⟨?_, ?_, ?_, ?_⟩
      · show (set ++ [key]).Nodup
        rw [List.nodup_append]
        refine ⟨hnd, List.nodup_singleton key, ?_⟩
        intro a ha hb
        rw [List.mem_singleton] at hb
        rw [hb] at ha
        exact hmem ha
      · show (set ++ [key]).length ≤ lim
        omega
      · exact List.mem_append_right set (List.mem_singleton_self key)
      · show ∀ y, y ∈ set ++ [key] ↔ y ∈ set ∨ y = key
        intro y
        rw [List.mem_append, List.mem_singleton]

theorem frEnqueue_preserves {α : Type} [DecidableEq α] (st : FRState α) (A B : α)
    (hinv : FRInv st) : FRInv (frEnqueue st A B) := by
  obtain ⟨hRem, hRec, hIff⟩ := hinv
  have h1 := awcl_spec (st.remembered A) B 5 (hRem A).1 (hRem A).2 (by omega)
  simp only [frEnqueue]
  cases ho1 : (addWithCircleLimit (st.remembered A) B 5).2 with
  | none =>
    rw [ho1] at h1
    dsimp only at h1
    obtain ⟨hL1nd, hL1len, hL1B, hL1mem⟩ := h1
    dsimp only
    have h2 := awcl_spec (st.received B) A 10 (hRec B).1 (hRec B).2 (by omega)
    cases ho2 : (addWithCircleLimit (st.received B) A 10).2 with
    | none =>
      rw [ho2] at h2
      dsimp only at h2
      obtain ⟨hL2nd, hL2len, hL2A, hL2mem⟩ := h2
      dsimp only
      refine ⟨?_, ?_, ?_⟩
      · intro a
        simp only [updList]
        by_cases ha : a = A
        · rw [if_pos ha]
          exact ⟨hL1nd, hL1len⟩
        · rw [if_neg ha]
          exact hRem a
      · intro a
        simp only [updList]
        by_cases ha : a = B
        · rw [if_pos ha]
          exact ⟨hL2nd, hL2len⟩
        · rw [if_neg ha]
          exact hRec a
      · intro x y
        simp only [updList]
        by_cases hx : x = A
        · rw [if_pos hx]
          rw [hL1mem y]
          by_cases hy : y = B
          · rw [if_pos hy]
            rw [hL2mem x]
            constructor
            · intro _
              exact Or.inr hx
            · intro _
              exact Or.inr hy
          · rw [if_neg hy]
            constructor
            · intro h
              rcases h with h | h
              · rw [hx]
                exact (hIff A y).mp h
              · exact absurd h hy
            · intro h
              rw [hx] at h
              exact Or.inl ((hIff A y).mpr h)
        · rw [if_neg hx]
          by_cases hy : y = B
          · rw [if_pos hy]
            rw [hL2mem x, hy]
            constructor
            · intro h
              exact Or.inl ((hIff x B).mp h)
            · intro h
              rcases h with h | h
              · exact (hIff x B).mpr h
              · exact absurd h hx
          · rw [if_neg hy]
            exact hIff x y
    | some rr =>
      rw [ho2] at h2
      dsimp only at h2
      obtain ⟨hL2nd, hL2len, hL2A, h2s⟩ := h2
      obtain ⟨hrrmem, hrrA, hL2mem⟩ := h2s
      dsimp only
      refine ⟨?_, ?_, ?_⟩
      · intro a
        simp only [removeDoubleKey, updList]
        by_cases harr : a = rr
        · rw [if_pos harr]
          have hne : ¬ (a = A) := fun h => hrrA (harr.symm.trans h)
          rw [if_neg hne]
          exact ⟨(hRem a).1.erase B, le_trans (List.length_erase_le B _) (hRem a).2⟩
        · rw [if_neg harr]
          by_cases ha : a = A
          · rw [if_pos ha]
            exact ⟨hL1nd, hL1len⟩
          · rw [if_neg ha]
            exact hRem a
      · intro a
        simp only [updList]
        by_cases ha : a = B
        · rw [if_pos ha]
          exact ⟨hL2nd, hL2len⟩
        · rw [if_neg ha]
          exact hRec a
      · intro x y
        simp only [removeDoubleKey, updList]
        by_cases hxrr : x = rr
        · rw [if_pos hxrr]
          have hxA : ¬ (x = A) := fun h => hrrA (hxrr.symm.trans h)
          rw [if_neg hxA]
          rw [(hRem x).1.mem_erase_iff]
          by_cases hy : y = B
          · rw [if_pos hy, hL2mem x]
            constructor
            · rintro ⟨hne, _⟩
              exact absurd hy hne
            · rintro (⟨_, hne⟩ | hA2)
              · exact absurd hxrr hne
              · exact absurd hA2 hxA
          · rw [if_neg hy]
            constructor
            · rintro ⟨_, hmem⟩
              exact (hIff x y).mp hmem
            · intro h
              exact ⟨hy, (hIff x y).mpr h⟩
        · rw [if_neg hxrr]
          by_cases hx : x = A
          · rw [if_pos hx]
            rw [hL1mem y]
            by_cases hy : y = B
            · rw [if_pos hy, hL2mem x]
              constructor
              · intro _
                exact Or.inr hx
              · intro _
                exact Or.inr hy
            · rw [if_neg hy]
              constructor
              · intro h
                rcases h with h | h
                · rw [hx]
                  exact (hIff A y).mp h
                · exact absurd h hy
              · intro h
                rw [hx] at h
                exact Or.inl ((hIff A y).mpr h)
          · rw [if_neg hx]
            by_cases hy : y = B
            · rw [if_pos hy, hL2mem x, hy]
              constructor
              · intro h
                exact Or.inl ⟨(hIff x B).mp h, hxrr⟩
              · rintro (⟨h, _⟩ | hA2)
                · exact (hIff x B).mpr h
                · exact absurd hA2 hx
            · rw [if_neg hy]
              exact hIff x y
  | some r =>
    rw [ho1] at h1
    dsimp only at h1
    obtain ⟨hL1nd, hL1len, hL1B, h1s⟩ := h1
    obtain ⟨hrmem, hrB, hL1mem⟩ := h1s
    dsimp only
    have hBr : ¬ (B = r) := fun h => hrB h.symm
    have hRDK : removeDoubleKey st.received r A B = st.received B := by
      simp only [removeDoubleKey]
      rw [if_neg hBr]
    rw [hRDK]
    have h2 := awcl_spec (st.received B) A 10 (hRec B).1 (hRec B).2 (by omega)
    cases ho2 : (addWithCircleLimit (st.received B) A 10).2 with
    | none =>
      rw [ho2] at h2
      dsimp only at h2
      obtain ⟨hL2nd, hL2len, hL2A, hL2mem⟩ := h2
      dsimp only
      refine ⟨?_, ?_, ?_⟩
      · intro a
        simp only [updList]
        by_cases ha : a = A
        · rw [if_pos ha]
          exact ⟨hL1nd, hL1len⟩
        · rw [if_neg ha]
          exact hRem a
      · intro a
        simp only [updList, removeDoubleKey]
        by_cases ha : a = B
        · rw [if_pos ha]
          exact ⟨hL2nd, hL2len⟩
        · rw [if_neg ha]
          by_cases har : a = r
          · rw [if_pos har]
            exact ⟨(hRec a).1.erase A, le_trans (List.length_erase_le A _) (hRec a).2⟩
          · rw [if_neg har]
            exact hRec a
      · intro x y
        simp only [updList, removeDoubleKey]
        by_cases hx : x = A
        · rw [if_pos hx, hL1mem y]
          by_cases hy : y = B
          · rw [if_pos hy, hL2mem x]
            constructor
            · intro _
              exact Or.inr hx
            · intro _
              exact Or.inr hy
          · rw [if_neg hy]
            by_cases hyr : y = r
            · rw [if_pos hyr, (hRec y).1.mem_erase_iff]
              constructor
              · rintro (⟨_, hne⟩ | hB2)
                · exact absurd hyr hne
                · exact absurd hB2 hy
              · rintro ⟨hne, _⟩
                exact absurd hx hne
            · rw [if_neg hyr]
              constructor
              · rintro (⟨h, _⟩ | hB2)
                · rw [hx]
                  exact (hIff A y).mp h
                · exact absurd hB2 hy
              · intro h
                rw [hx] at h
                exact Or.inl ⟨(hIff A y).mpr h, hyr⟩
        · rw [if_neg hx]
          by_cases hy : y = B
          · rw [if_pos hy, hL2mem x, hy]
            constructor
            · intro h
              exact Or.inl ((hIff x B).mp h)
            · rintro (h | hA2)
              · exact (hIff x B).mpr h
              · exact absurd hA2 hx
          · rw [if_neg hy]
            by_cases hyr : y = r
            · rw [if_pos hyr, (hRec y).1.mem_erase_iff, hyr]
              constructor
              · intro h
                exact ⟨hx, (hIff x r).mp h⟩
              · rintro ⟨_, h⟩
                exact (hIff x r).mpr h
            · rw [if_neg hyr]
              exact hIff x y
    | some rr =>
      rw [ho2] at h2
      dsimp only at h2
      obtain ⟨hL2nd, hL2len, hL2A, h2s⟩ := h2
      obtain ⟨hrrmem, hrrA, hL2mem⟩ := h2s
      dsimp only
      refine ⟨?_, ?_, ?_⟩
      · intro a
        simp only [removeDoubleKey, updList]
        by_cases harr : a = rr
        · rw [if_pos harr]
          have hne : ¬ (a = A) := fun h => hrrA (harr.symm.trans h)
          rw [if_neg hne]
          exact ⟨(hRem a).1.erase B, le_trans (List.length_erase_le B _) (hRem a).2⟩
        · rw [if_neg harr]
          by_cases ha : a = A
          · rw [if_pos ha]
            exact ⟨hL1nd, hL1len⟩
          · rw [if_neg ha]
            exact hRem a
      · intro a
        simp only [updList, removeDoubleKey]
        by_cases ha : a = B
        · rw [if_pos ha]
          exact ⟨hL2nd, hL2len⟩
        · rw [if_neg ha]
          by_cases har : a = r
          · rw [if_pos har]
            exact ⟨(hRec a).1.erase A, le_trans (List.length_erase_le A _) (hRec a).2⟩
          · rw [if_neg har]
            exact hRec a
      · intro x y
        simp only [removeDoubleKey, updList]
        by_cases hxrr : x = rr
        · rw [if_pos hxrr]
          have hxA : ¬ (x = A) := fun h => hrrA (hxrr.symm.trans h)
          rw [if_neg hxA]
          rw [(hRem x).1.mem_erase_iff]
          by_cases hy : y = B
          · rw [if_pos hy, hL2mem x]
            constructor
            · rintro ⟨hne, _⟩
              exact absurd hy hne
            · rintro (⟨_, hne⟩ | hA2)
              · exact absurd hxrr hne
              · exact absurd hA2 hxA
          · rw [if_neg hy]
            by_cases hyr : y = r
            · rw [if_pos hyr, (hRec y).1.mem_erase_iff]
              constructor
              · rintro ⟨_, hmem⟩
                exact ⟨hxA, (hIff x y).mp hmem⟩
              · rintro ⟨_, hmem⟩
                exact ⟨hy, (hIff x y).mpr hmem⟩
            · rw [if_neg hyr]
              constructor
              · rintro ⟨_, hmem⟩
                exact (hIff x y).mp hmem
              · intro h
                exact ⟨hy, (hIff x y).mpr h⟩
        · rw [if_neg hxrr]
          by_cases hx : x = A
          · rw [if_pos hx, hL1mem y]
            by_cases hy : y = B
            · rw [if_pos hy, hL2mem x]
              constructor
              · intro _
                exact Or.inr hx
              · intro _
                exact Or.inr hy
            · rw [if_neg hy]
              by_cases hyr : y = r
              · rw [if_pos hyr, (hRec y).1.mem_erase_iff]
                constructor
                · rintro (⟨_, hne⟩ | hB2)
                  · exact absurd hyr hne
                  · exact absurd hB2 hy
                · rintro ⟨hne, _⟩
                  exact absurd hx hne
              · rw [if_neg hyr]
                constructor
                · rintro (⟨h, _⟩ | hB2)
                  · rw [hx]
                    exact (hIff A y).mp h
                  · exact absurd hB2 hy
                · intro h
                  rw [hx] at h
                  exact Or.inl ⟨(hIff A y).mpr h, hyr⟩
          · rw [if_neg hx]
            by_cases hy : y = B
            · rw [if_pos hy, hL2mem x, hy]
              constructor
              · intro h
                exact Or.inl ⟨(hIff x B).mp h, hxrr⟩
              · rintro (⟨h, _⟩ | hA2)
                · exact (hIff x B).mpr h
                · exact absurd hA2 hx
            · rw [if_neg hy]
              by_cases hyr : y = r
              · rw [if_pos hyr, (hRec y).1.mem_erase_iff, hyr]
                constructor
                · intro h
                  exact ⟨hx, (hIff x r).mp h⟩
                · rintro ⟨_, h⟩
                  exact (hIff x r).mpr h
              · rw [if_neg hyr]
                exact hIff x y

theorem frFold_sublist {α : Type} [DecidableEq α] (user : α) (q : List α) :
    ∀ (m : α → List α) (a : α),
      List.Sublist ((q.foldl (fun m rf => removeDoubleKey m rf user) m) a) (m a) := by
  induction q with
  | nil =>
    intro m a
    exact List.Sublist.refl _
  | cons rf q ih =>
    intro m a
    rw [List.foldl_cons]
    refine (ih (removeDoubleKey m rf user) a).trans ?_
    simp only [removeDoubleKey]
    by_cases ha : a = rf
    · rw [if_pos ha]
      exact List.erase_sublist _ _
    · rw [if_neg ha]

theorem frFold_mem {α : Type} [DecidableEq α] (user : α) (q : List α) :
    ∀ (m : α → List α), (∀ x, (m x).Nodup) → ∀ (a y : α),
      (y ∈ (q.foldl (fun m rf => removeDoubleKey m rf user) m) a ↔
        (y ∈ m a ∧ (a ∈ q → y ≠ user))) := by
  induction q with
  | nil =>
    intro m _ a y
    simp
  | cons rf q ih =>
    intro m hnd a y
    rw [List.foldl_cons]
    have hnd2 : ∀ x, ((removeDoubleKey m rf user) x).Nodup := by
      intro x
      simp only [removeDoubleKey]
      by_cases hx : x = rf
      · rw [if_pos hx]
        exact (hnd x).erase user
      · rw [if_neg hx]
        exact hnd x
    rw [ih (removeDoubleKey m rf user) hnd2 a y]
    simp only [removeDoubleKey, List.mem_cons]
    by_cases ha : a = rf
    · rw [if_pos ha]
      rw [(hnd a).mem_erase_iff]
      constructor
      · rintro ⟨⟨hyu, hym⟩, _⟩
        exact ⟨hym, fun _ => hyu⟩
      · rintro ⟨hym, himp⟩
        have hyu : y ≠ user := himp (Or.inl ha)
        exact ⟨⟨hyu, hym⟩, fun _ => hyu⟩
    · rw [if_neg ha]
      constructor
      · rintro ⟨hym, himp⟩
        refine ⟨hym, fun hc => ?_⟩
        rcases hc with hc | hc
        · exact absurd hc ha
        · exact himp hc
      · rintro ⟨hym, himp⟩
        exact ⟨hym, fun hc => himp (Or.inr hc)⟩

theorem frDequeue_preserves {α : Type} [DecidableEq α] (st : FRState α) (u : α)
    (k : Nat) (hk : (st.received u).length ≤ k)
    (hinv : FRInv st) : FRInv (frDequeue st u k) := by
  obtain ⟨hRem, hRec, hIff⟩ := hinv
  have hnd : ∀ x, (st.remembered x).Nodup := fun x => (hRem x).1
  simp only [frDequeue]
  rw [List.take_of_length_le hk]
  refine ⟨?_, ?_, ?_⟩
  · intro a
    have hsub := frFold_sublist u (st.received u) st.remembered a
    exact ⟨List.Nodup.sublist hsub (hRem a).1, le_trans hsub.length_le (hRem a).2⟩
  · intro a
    simp only [updList]
    by_cases ha : a = u
    · rw [if_pos ha]
      exact ⟨List.nodup_nil, by simp⟩
    · rw [if_neg ha]
      exact hRec a
  · intro x y
    rw [frFold_mem u (st.received u) st.remembered hnd x y]
    simp only [updList]
    by_cases hy : y = u
    · rw [if_pos hy]
      simp only [List.not_mem_nil, iff_false]
      rintro ⟨hym, himp⟩
      have hx : x ∈ st.received u := by
        rw [← hy]
        exact (hIff x y).mp hym
      exact himp hx hy
    · rw [if_neg hy]
      constructor
      · rintro ⟨hym, _⟩
        exact (hIff x y).mp hym
      · intro h
        exact ⟨(hIff x y).mpr h, fun _ => hy⟩

theorem frEnqueueW_preserves {α : Type} [DecidableEq α] (st : FRState α) (A B : α)
    (hinv : FRInvW st) : FRInvW (frEnqueue st A B) := by
  obtain ⟨hRem, hRec, hMir⟩ := hinv
  have h1 := awcl_spec (st.remembered A) B 5 (hRem A).1 (hRem A).2 (by omega)
  simp only [frEnqueue]
  cases ho1 : (addWithCircleLimit (st.remembered A) B 5).2 with
  | none =>
    rw [ho1] at h1
    dsimp only at h1
    obtain ⟨hL1nd, hL1len, hL1B, hL1mem⟩ := h1
    dsimp only
    have h2 := awcl_spec (st.received B) A 10 (hRec B).1 (hRec B).2 (by omega)
    cases ho2 : (addWithCircleLimit (st.received B) A 10).2 with
    | none =>
      rw [ho2] at h2
      dsimp only at h2
      obtain ⟨hL2nd, hL2len, hL2A, hL2mem⟩ := h2
      dsimp only
      refine ⟨?_, ?_, ?_⟩
      · intro a
        simp only [updList]
        by_cases ha : a = A
        · rw [if_pos ha]
          exact ⟨hL1nd, hL1len⟩
        · rw [if_neg ha]
          exact hRem a
      · intro a
        simp only [updList]
        by_cases ha : a = B
        · rw [if_pos ha]
          exact ⟨hL2nd, hL2len⟩
        · rw [if_neg ha]
          exact hRec a
      · intro x y
        simp only [updList]
        by_cases hx : x = A
        · rw [if_pos hx, hL1mem y]
          by_cases hy : y = B
          · rw [if_pos hy]
            intro _
            exact Or.inr hy
          · rw [if_neg hy]
            intro hp
            rw [hx] at hp
            exact Or.inl (hMir A y hp)
        · rw [if_neg hx]
          by_cases hy : y = B
          · rw [if_pos hy, hL2mem x, hy]
            intro hp
            rcases hp with hp | hA2
            · exact hMir x B hp
            · exact absurd hA2 hx
          · rw [if_neg hy]
            exact hMir x y
    | some rr =>
      rw [ho2] at h2
      dsimp only at h2
      obtain ⟨hL2nd, hL2len, hL2A, h2s⟩ := h2
      obtain ⟨hrrmem, hrrA, hL2mem⟩ := h2s
      dsimp only
      refine ⟨?_, ?_, ?_⟩
      · intro a
        simp only [removeDoubleKey, updList]
        by_cases harr : a = rr
        · rw [if_pos harr]
          have hne : ¬ (a = A) := fun h => hrrA (harr.symm.trans h)
          rw [if_neg hne]
          exact ⟨(hRem a).1.erase B, le_trans (List.length_erase_le B _) (hRem a).2⟩
        · rw [if_neg harr]
          by_cases ha : a = A
          · rw [if_pos ha]
            exact ⟨hL1nd, hL1len⟩
          · rw [if_neg ha]
            exact hRem a
      · intro a
        simp only [updList]
        by_cases ha : a = B
        · rw [if_pos ha]
          exact ⟨hL2nd, hL2len⟩
        · rw [if_neg ha]
          exact hRec a
      · intro x y
        simp only [removeDoubleKey, updList]
        by_cases hxrr : x = rr
        · rw [if_pos hxrr]
          have hxA : ¬ (x = A) := fun h => hrrA (hxrr.symm.trans h)
          rw [if_neg hxA]
          rw [(hRem x).1.mem_erase_iff]
          by_cases hy : y = B
          · rw [if_pos hy, hL2mem x]
            intro hp
            rcases hp with ⟨_, hne⟩ | hA2
            · exact absurd hxrr hne
            · exact absurd hA2 hxA
          · rw [if_neg hy]
            intro hp
            exact ⟨hy, hMir x y hp⟩
        · rw [if_neg hxrr]
          by_cases hx : x = A
          · rw [if_pos hx, hL1mem y]
            by_cases hy : y = B
            · rw [if_pos hy]
              intro _
              exact Or.inr hy
            · rw [if_neg hy]
              intro hp
              rw [hx] at hp
              exact Or.inl (hMir A y hp)
          · rw [if_neg hx]
            by_cases hy : y = B
            · rw [if_pos hy, hL2mem x, hy]
              intro hp
              rcases hp with ⟨hp, _⟩ | hA2
              · exact hMir x B hp
              · exact absurd hA2 hx
            · rw [if_neg hy]
              exact hMir x y
  | some r =>
    rw [ho1] at h1
    dsimp only at h1
    obtain ⟨hL1nd, hL1len, hL1B, h1s⟩ := h1
    obtain ⟨hrmem, hrB, hL1mem⟩ := h1s
    dsimp only
    have hBr : ¬ (B = r) := fun h => hrB h.symm
    have hRDK : removeDoubleKey st.received r A B = st.received B := by
      simp only [removeDoubleKey]
      rw [if_neg hBr]
    rw [hRDK]
    have h2 := awcl_spec (st.received B) A 10 (hRec B).1 (hRec B).2 (by omega)
    cases ho2 : (addWithCircleLimit (st.received B) A 10).2 with
    | none =>
      rw [ho2] at h2
      dsimp only at h2
      obtain ⟨hL2nd, hL2len, hL2A, hL2mem⟩ := h2
      dsimp only
      refine ⟨?_, ?_, ?_⟩
      · intro a
        simp only [updList]
        by_cases ha : a = A
        · rw [if_pos ha]
          exact ⟨hL1nd, hL1len⟩
        · rw [if_neg ha]
          exact hRem a
      · intro a
        simp only [updList, removeDoubleKey]
        by_cases ha : a = B
        · rw [if_pos ha]
          exact ⟨hL2nd, hL2len⟩
        · rw [if_neg ha]
          by_cases har : a = r
          · rw [if_pos har]
            exact ⟨(hRec a).1.erase A, le_trans (List.length_erase_le A _) (hRec a).2⟩
          · rw [if_neg har]
            exact hRec a
      · intro x y
        simp only [updList, removeDoubleKey]
        by_cases hx : x = A
        · rw [if_pos hx, hL1mem y]
          by_cases hy : y = B
          · rw [if_pos hy]
            intro _
            exact Or.inr hy
          · rw [if_neg hy]
            by_cases hyr : y = r
            · rw [if_pos hyr, (hRec y).1.mem_erase_iff]
              intro hp
              exact absurd hx hp.1
            · rw [if_neg hyr]
              intro hp
              rw [hx] at hp
              exact Or.inl ⟨hMir A y hp, hyr⟩
        · rw [if_neg hx]
          by_cases hy : y = B
          · rw [if_pos hy, hL2mem x, hy]
            intro hp
            rcases hp with hp | hA2
            · exact hMir x B hp
            · exact absurd hA2 hx
          · rw [if_neg hy]
            by_cases hyr : y = r
            · rw [if_pos hyr, (hRec y).1.mem_erase_iff, hyr]
              intro hp
              exact hMir x r hp.2
            · rw [if_neg hyr]
              exact hMir x y
    | some rr =>
      rw [ho2] at h2
      dsimp only at h2
      obtain ⟨hL2nd, hL2len, hL2A, h2s⟩ := h2
      obtain ⟨hrrmem, hrrA, hL2mem⟩ := h2s
      dsimp only
      refine ⟨?_, ?_, ?_⟩
      · intro a
        simp only [removeDoubleKey, updList]
        by_cases harr : a = rr
        · rw [if_pos harr]
          have hne : ¬ (a = A) := fun h => hrrA (harr.symm.trans h)
          rw [if_neg hne]
          exact ⟨(hRem a).1.erase B, le_trans (List.length_erase_le B _) (hRem a).2⟩
        · rw [if_neg harr]
          by_cases ha : a = A
          · rw [if_pos ha]
            exact ⟨hL1nd, hL1len⟩
          · rw [if_neg ha]
            exact hRem a
      · intro a
        simp only [updList, removeDoubleKey]
        by_cases ha : a = B
        · rw [if_pos ha]
          exact ⟨hL2nd, hL2len⟩
        · rw [if_neg ha]
          by_cases har : a = r
          · rw [if_pos har]
            exact ⟨(hRec a).1.erase A, le_trans (List.length_erase_le A _) (hRec a).2⟩
          · rw [if_neg har]
            exact hRec a
      · intro x y
        simp only [removeDoubleKey, updList]
        by_cases hxrr : x = rr
        · rw [if_pos hxrr]
          have hxA : ¬ (x = A) := fun h => hrrA (hxrr.symm.trans h)
          rw [if_neg hxA]
          rw [(hRem x).1.mem_erase_iff]
          by_cases hy : y = B
          · rw [if_pos hy, hL2mem x]
            intro hp
            rcases hp with ⟨_, hne⟩ | hA2
            · exact absurd hxrr hne
            · exact absurd hA2 hxA
          · rw [if_neg hy]
            by_cases hyr : y = r
            · rw [if_pos hyr, (hRec y).1.mem_erase_iff, hyr]
              intro hp
              exact ⟨hrB, hMir x r hp.2⟩
            · rw [if_neg hyr]
              intro hp
              exact ⟨hy, hMir x y hp⟩
        · rw [if_neg hxrr]
          by_cases hx : x = A
          · rw [if_pos hx, hL1mem y]
            by_cases hy : y = B
            · rw [if_pos hy]
              intro _
              exact Or.inr hy
            · rw [if_neg hy]
              by_cases hyr : y = r
              · rw [if_pos hyr, (hRec y).1.mem_erase_iff]
                intro hp
                exact absurd hx hp.1
              · rw [if_neg hyr]
                intro hp
                rw [hx] at hp
                exact Or.inl ⟨hMir A y hp, hyr⟩
          · rw [if_neg hx]
            by_cases hy : y = B
            · rw [if_pos hy, hL2mem x, hy]
              intro hp
              rcases hp with ⟨hp, _⟩ | hA2
              · exact hMir x B hp
              · exact absurd hA2 hx
            · rw [if_neg hy]
              by_cases hyr : y = r
              · rw [if_pos hyr, (hRec y).1.mem_erase_iff, hyr]
                intro hp
                exact hMir x r hp.2
              · rw [if_neg hyr]
                exact hMir x y

theorem frDequeueW_preserves {α : Type} [DecidableEq α] (st : FRState α) (u : α)
    (k : Nat) (hinv : FRInvW st) : FRInvW (frDequeue st u k) := by
  obtain ⟨hRem, hRec, hMir⟩ := hinv
  have hnd : ∀ x, (st.remembered x).Nodup := fun x => (hRem x).1
  simp only [frDequeue]
  refine ⟨?_, ?_, ?_⟩
  · intro a
    have hsub := frFold_sublist u ((st.received u).take k) st.remembered a
    exact ⟨List.Nodup.sublist hsub (hRem a).1, le_trans hsub.length_le (hRem a).2⟩
  · intro a
    simp only [updList]
    by_cases ha : a = u
    · rw [if_pos ha]
      exact ⟨List.nodup_nil, by simp⟩
    · rw [if_neg ha]
      exact hRec a
  · intro x y
    rw [frFold_mem u ((st.received u).take k) st.remembered hnd x y]
    simp only [updList]
    by_cases hy : y = u
    · rw [if_pos hy]
      intro hp
      exact absurd hp (List.not_mem_nil x)
    · rw [if_neg hy]
      intro hp
      exact ⟨hMir x y hp, fun _ => hy⟩

theorem applyFROp_preserves {α : Type} [DecidableEq α] (st : FRState α) (op : FROp α)
    (hok : ∀ u k, op = FROp.connect u k → 10 ≤ k)
    (hinv : FRInv st) : FRInv (applyFROp st op) := by
  cases op with
  | request selfU toU => exact frEnqueue_preserves st selfU toU hinv
  | connect user sendOk =>
    exact frDequeue_preserves st user sendOk
      (le_trans (hinv.2.1 user).2 (hok user sendOk rfl)) hinv

theorem applyFROpW_preserves {α : Type} [DecidableEq α] (st : FRState α) (op : FROp α)
    (hinv : FRInvW st) : FRInvW (applyFROp st op) := by
  cases op with
  | request selfU toU => exact frEnqueueW_preserves st selfU toU hinv
  | connect user sendOk => exact frDequeueW_preserves st user sendOk hinv

theorem frInv_empty {α : Type} : FRInv (emptyFR : FRState α) :=
  ⟨fun _ => ⟨List.nodup_nil, by simp [emptyFR]⟩,
   fun _ => ⟨List.nodup_nil, by simp [emptyFR]⟩,
   fun _ _ => by simp [emptyFR]⟩

theorem frInv_weak {α : Type} (st : FRState α) (h : FRInv st) : FRInvW st :=
  ⟨h.1, h.2.1, fun a b hab => (h.2.2 a b).mpr hab⟩

theorem runFR_inv_weak_aux {α : Type} [DecidableEq α] (ops : List (FROp α)) :
    ∀ st : FRState α, FRInvW st → FRInvW (ops.foldl applyFROp st) := by
  induction ops with
  | nil =>
    intro st h
    exact h
  | cons op ops ih =>
    intro st h
    rw [List.foldl_cons]
    exact ih _ (applyFROpW_preserves st op h)

theorem runFR_inv_full_aux {α : Type} [DecidableEq α] (ops : List (FROp α)) :
    ∀ st : FRState α, drainsComplete ops = true → FRInv st →
      FRInv (ops.foldl applyFROp st) := by
  induction ops with
  | nil =>
    intro st _ h
    exact h
  | cons op ops ih =>
    intro st hall h
    simp only [drainsComplete, List.all_cons, Bool.and_eq_true] at hall
    rw [List.foldl_cons]
    have hok : ∀ u k, op = FROp.connect u k → 10 ≤ k := by
      intro u k hop
      have h1 := hall.1
      rw [hop] at h1
      simp only [decide_eq_true_eq] at h1
      exact h1
    exact ih _ hall.2 (applyFROp_preserves st op hok h)

/-- Claim C4 counterexample: user 0 friend-requests the offline user 1
(the stores then hold the mirrored pair `remembered[0] = {1}`,
`received[1] = {0}`); user 1 connects and the `FriendRequest`
notification send fails before the first `remove_double_key` runs
(`connect 1 0`).  `received[1]` was already removed wholesale, but
`remembered[0]` still contains 1, so `1 ∈ remembered[0]` while
`0 ∉ received[1]` — the claimed bi-implication fails in a reachable
state. -/
theorem friend_request_partial_dequeue_counterexample :
    (runFR [FROp.request 0 1, FROp.connect 1 0]).remembered 0 = [1] ∧
    (runFR [FROp.request 0 1, FROp.connect 1 0]).received 1 = [] ∧
    ¬ FRInv (runFR [FROp.request 0 1, FROp.connect 1 0]) := by
  refine ⟨by decide, by decide, ?_⟩
  intro h
  have h1 : (1 : Nat) ∈ (runFR [FROp.request 0 1, FROp.connect 1 0]).remembered 0 := by
    decide
  have h2 := (h.2.2 0 1).mp h1
  have h3 : (runFR [FROp.request 0 1, FROp.connect 1 0]).received 1 = [] := by
    decide
  rw [h3] at h2
  exact List.not_mem_nil 0 h2

/-- Claim C4: the claimed bi-implication `b ∈ remembered[a] ↔
a ∈ received[b]` does not survive every reachable sequence:
`dequeue_friend_requests` removes `received[user]` wholesale and then
sends each queued sender a message before clearing the remembered
mirror, so a transport failure (the `?` on `send_message`) aborts the
drain mid-way and leaves the remaining senders' remembered entries
unmirrored.  What holds after any sequence of enqueues and (possibly
aborted) dequeues: both stores stay duplicate-free within the 5/10
bounds, and the received-to-remembered direction of the mirror; and
whenever every drain runs to completion (10 successful sends always
suffice, since a received bucket never exceeds 10 entries), the full
invariant, bi-implication included, is preserved. -/
theorem friend_request_invariants {α : Type} [DecidableEq α]
    (ops : List (FROp α)) :
    FRInvW (runFR ops) ∧
    (drainsComplete ops = true → FRInv (runFR ops)) :=
  ⟨runFR_inv_weak_aux ops emptyFR (frInv_weak emptyFR frInv_empty),
   fun hall => runFR_inv_full_aux ops emptyFR hall frInv_empty⟩

/-- Claim C4 witness: the invariants theorem applied to the concrete
sequence "user 0 requests user 1, then user 1 connects and its drain
completes", with the drains-complete hypothesis discharged by
computation. -/
theorem friend_request_invariants_witness :
    drainsComplete [FROp.request 0 1, FROp.connect 1 10] = true ∧
    FRInvW (runFR [FROp.request 0 1, FROp.connect 1 10]) ∧
    FRInv (runFR [FROp.request 0 1, FROp.connect 1 10]) :=
  ⟨by decide,
   (friend_request_invariants [FROp.request 0 1, FROp.connect 1 10]).1,
   (friend_request_invariants [FROp.request 0 1, FROp.connect 1 10]).2 (by decide)⟩

/-! ## Claim C7: ConnectionId render/parse roundtrip -/

theorem splitOnSep_no_sep (sep : Nat) (s : List Nat) (h : sep ∉ s) :
    splitOnSep sep s = [s] := by
  induction s with
  | nil => rfl
  | cons c rest ih =>
    have hc : ¬ (c = sep) := by
      intro hc
      exact h (by rw [hc]; exact List.mem_cons_self sep rest)
    have hr : sep ∉ rest := fun hr => h (List.mem_cons_of_mem c hr)
    simp only [splitOnSep]
    rw [if_neg hc, ih hr]

theorem splitOnSep_append (sep : Nat) (a b : List Nat) (h : sep ∉ a) :
    splitOnSep sep (a ++ sep :: b) = a :: splitOnSep sep b := by
  induction a with
  | nil =>
    simp only [List.nil_append, splitOnSep, if_true]
  | cons c a ih =>
    have hc : ¬ (c = sep) := by
      intro hc
      exact h (by rw [hc]; exact List.mem_cons_self sep a)
    have ha : sep ∉ a := fun hr => h (List.mem_cons_of_mem c hr)
    simp only [List.cons_append, splitOnSep, List.append_eq]
    rw [if_neg hc, ih ha]

theorem wordsInverseGo_no_match (w : Word) (xs : List Word) :
    ∀ (i : Nat) (acc : Option Nat), (∀ x ∈ xs, toLowerWord x ≠ toLowerWord w) →
      wordsInverseGo w i xs acc = acc := by
  induction xs with
  | nil =>
    intro i acc _
    rfl
  | cons x xs ih =>
    intro i acc h
    simp only [wordsInverseGo]
    rw [if_neg (h x (List.mem_cons_self x xs))]
    exact ih (i + 1) acc (fun y hy => h y (List.mem_cons_of_mem x hy))

theorem wordsInverseGo_unique (w : Word) (xs : List Word) :
    ∀ (i : Nat) (acc : Option Nat) (j : Nat) (hj : j < xs.length),
      (xs.map toLowerWord).Nodup →
      toLowerWord (xs.get ⟨j, hj⟩) = toLowerWord w →
      wordsInverseGo w i xs acc = some (i + j) := by
  induction xs with
  | nil =>
    intro i acc j hj _ _
    exact absurd hj (by simp)
  | cons x xs ih =>
    intro i acc j hj hnd hmatch
    simp only [wordsInverseGo]
    have hnd1 : (xs.map toLowerWord).Nodup := by
      simp only [List.map_cons, List.nodup_cons] at hnd
      exact hnd.2
    have hnotin : toLowerWord x ∉ xs.map toLowerWord := by
      simp only [List.map_cons, List.nodup_cons] at hnd
      exact hnd.1
    cases j with
    | zero =>
      have hx : toLowerWord x = toLowerWord w := hmatch
      rw [if_pos hx, Nat.add_zero]
      apply wordsInverseGo_no_match
      intro y hy hyw
      exact hnotin (List.mem_map.mpr ⟨y, hy, hyw.trans hx.symm⟩)
    | succ j =>
      have hj2 : j < xs.length := by
        have hh := hj
        simp only [List.length_cons] at hh
        omega
      have hxs : toLowerWord (xs.get ⟨j, hj2⟩) = toLowerWord w := hmatch
      have hxne : ¬ (toLowerWord x = toLowerWord w) := by
        intro hx
        exact hnotin (List.mem_map.mpr
          ⟨xs.get ⟨j, hj2⟩, List.get_mem xs j hj2, hxs.trans hx.symm⟩)
      rw [if_neg hxne]
      rw [ih (i + 1) acc j hj2 hnd1 hxs]
      congr 1
      omega

theorem wordsInverse_getElem (words : List Word)
    (hnd : (words.map toLowerWord).Nodup) (i : Nat) (hi : i < words.length) :
    wordsInverse words words[i] = some i := by
  unfold wordsInverse
  rw [wordsInverseGo_unique words[i] words 0 none i hi hnd rfl]
  rw [Nat.zero_add]

theorem lookupWordsGo_cons (words : List Word) (w : Word) (rest : List Word)
    (resu shift i : Nat) (hi : wordsInverse words w = some i) :
    lookupWordsGo words (w :: rest) resu shift =
      lookupWordsGo words rest (resu ||| (i <<< shift)) (shift + WORD_SHIFT) := by
  simp only [lookupWordsGo]
  rw [hi]

theorem fromStr_words_eval (words : List Word) (w1 w2 w3 : Word)
    (h1 : 45 ∉ w1) (h2 : 45 ∉ w2) (h3 : 45 ∉ w3) :
    fromStr words (w1 ++ 45 :: w2 ++ 45 :: w3) = lookupWordsGo words [w1, w2, w3] 0 0 := by
  have hshape : (w1 ++ 45 :: w2) ++ 45 :: w3 = w1 ++ 45 :: (w2 ++ 45 :: w3) := by
    rw [List.append_assoc, List.cons_append]
  have hsplit : splitOnSep 45 (w1 ++ 45 :: w2 ++ 45 :: w3) = [w1, w2, w3] := by
    rw [hshape]
    rw [splitOnSep_append 45 w1 _ h1, splitOnSep_append 45 w2 _ h2,
      splitOnSep_no_sep 45 w3 h3]
  simp only [fromStr]
  rw [hsplit]
  rw [if_neg (by simp)]

theorem toBase36Digit_ge (d : Nat) : 48 ≤ toBase36Digit d := by
  unfold toBase36Digit
  by_cases h : d < 10
  · rw [if_pos h]
    omega
  · rw [if_neg h]
    omega

theorem digitVal36_toBase36Digit (d : Nat) (hd : d < 36) :
    digitVal36 (toBase36Digit d) = some d := by
  unfold toBase36Digit digitVal36
  by_cases h : d < 10
  · rw [if_pos h]
    rw [if_pos (by omega : 48 ≤ 48 + d ∧ 48 + d ≤ 57)]
    congr 1
    omega
  · rw [if_neg h]
    rw [if_neg (by omega : ¬ (48 ≤ 87 + d ∧ 87 + d ≤ 57))]
    rw [if_neg (by omega : ¬ (65 ≤ 87 + d ∧ 87 + d ≤ 90))]
    rw [if_pos (by omega : 97 ≤ 87 + d ∧ 87 + d ≤ 122)]
    congr 1
    omega

theorem fromStrRadix36_no_plus (s : List Nat) (hne : s ≠ [])
    (hge : ∀ c ∈ s, 48 ≤ c) : fromStrRadix36 s = radix36Go s 0 := by
  cases s with
  | nil => exact absurd rfl hne
  | cons c rest =>
    have hc : ¬ (c = 43) := by
      have := hge c (List.mem_cons_self c rest)
      omega
    simp only [fromStrRadix36]
    rw [if_neg hc]
    rw [if_neg (List.cons_ne_nil c rest)]

theorem fromStr_short_eval (words : List Word) (s : List Nat) (hlen9 : s.length = 9)
    (h45 : (45:Nat) ∉ s) (hge : ∀ c ∈ s, 48 ≤ c) :
    fromStr words s =
      match radix36Go s 0 with
      | some v => Except.ok v
      | none => Except.error ParseCidError.invalidNumber := by
  have hsplit : splitOnSep 45 s = [s] := splitOnSep_no_sep 45 s h45
  have hne : s ≠ [] := by
    intro h
    rw [h] at hlen9
    simp at hlen9
  simp only [fromStr]
  rw [hsplit]
  rw [if_pos (by simp)]
  rw [if_neg (by simp)]
  rw [List.headD_cons]
  rw [if_neg (by simp [hlen9])]
  rw [fromStrRadix36_no_plus s hne hge]

theorem div_mod_pow36 (m e k : Nat) (h : e < k) :
    m / 36 ^ e % 36 = m % 36 ^ k / 36 ^ e % 36 := by
  conv_lhs => rw [← Nat.div_add_mod m (36 ^ k)]
  have hrw : 36 ^ k * (m / 36 ^ k) + m % 36 ^ k =
      36 ^ e * (36 ^ (k - e) * (m / 36 ^ k)) + m % 36 ^ k := by
    rw [← Nat.mul_assoc, ← Nat.pow_add]
    congr 3
    omega
  rw [hrw]
  rw [Nat.mul_add_div (Nat.pos_pow_of_pos e (by omega))]
  have hsplit : 36 ^ (k - e) * (m / 36 ^ k) =
      36 * (36 ^ (k - e - 1) * (m / 36 ^ k)) := by
    rw [← Nat.mul_assoc]
    congr 2
    rw [← pow_succ']
    congr 1
    omega
  rw [hsplit, Nat.mul_add_mod]

theorem radix36Go_digits (k : Nat) :
    ∀ (acc m : Nat), m < 36 ^ k → acc * 36 ^ k + m < U64_LIMIT →
      radix36Go ((List.range k).map fun i => toBase36Digit (m / 36 ^ (k - 1 - i) % 36)) acc =
        some (acc * 36 ^ k + m) := by
  induction k with
  | zero =>
    intro acc m hm _
    simp only [List.range_zero, List.map_nil, radix36Go]
    congr 1
    rw [pow_zero] at hm ⊢
    omega
  | succ k ih =>
    intro acc m hm hacc
    have hpos : 0 < 36 ^ k := Nat.pos_pow_of_pos k (by omega)
    have hdiv : m / 36 ^ k < 36 := by
      apply Nat.div_lt_of_lt_mul
      rw [← pow_succ]
      exact hm
    have hfun : (fun i => toBase36Digit (m / 36 ^ (k + 1 - 1 - i) % 36)) =
        (fun i => toBase36Digit (m / 36 ^ (k - i) % 36)) := by
      funext i
      have he : k + 1 - 1 - i = k - i := by omega
      rw [he]
    rw [hfun]
    rw [List.range_succ_eq_map]
    simp only [List.map_cons, List.map_map]
    have hdig : m / 36 ^ (k - 0) % 36 = m / 36 ^ k := by
      rw [Nat.sub_zero]
      exact Nat.mod_eq_of_lt hdiv
    rw [hdig]
    have htail : List.map ((fun i => toBase36Digit (m / 36 ^ (k - i) % 36)) ∘ Nat.succ)
        (List.range k) =
        (List.range k).map (fun i => toBase36Digit (m % 36 ^ k / 36 ^ (k - 1 - i) % 36)) := by
      apply List.map_congr_left
      intro i hi
      have hik : i < k := List.mem_range.mp hi
      simp only [Function.comp_apply]
      have he : k - Nat.succ i = k - 1 - i := by omega
      rw [he]
      congr 1
      exact div_mod_pow36 m (k - 1 - i) k (by omega)
    rw [htail]
    simp only [radix36Go]
    rw [digitVal36_toBase36Digit (m / 36 ^ k) hdiv]
    dsimp only
    have hle : (acc * 36 + m / 36 ^ k) * 36 ^ k ≤ acc * 36 ^ (k + 1) + m := by
      have h1 : m / 36 ^ k * 36 ^ k ≤ m := Nat.div_mul_le_self m (36 ^ k)
      calc (acc * 36 + m / 36 ^ k) * 36 ^ k
          = acc * (36 ^ k * 36) + m / 36 ^ k * 36 ^ k := by ring
        _ = acc * 36 ^ (k + 1) + m / 36 ^ k * 36 ^ k := by rw [← pow_succ]
        _ ≤ acc * 36 ^ (k + 1) + m := by omega
    have haccb : acc * 36 + m / 36 ^ k < U64_LIMIT := by
      have h2 : acc * 36 + m / 36 ^ k ≤ (acc * 36 + m / 36 ^ k) * 36 ^ k :=
        Nat.le_mul_of_pos_right _ hpos
      omega
    rw [if_neg (by omega : ¬ (acc * 36 + m / 36 ^ k ≥ U64_LIMIT))]
    have hm2 : m % 36 ^ k < 36 ^ k := Nat.mod_lt _ hpos
    have hexact : (acc * 36 + m / 36 ^ k) * 36 ^ k + m % 36 ^ k = acc * 36 ^ (k + 1) + m := by
      have hdm : 36 ^ k * (m / 36 ^ k) + m % 36 ^ k = m := Nat.div_add_mod m (36 ^ k)
      calc (acc * 36 + m / 36 ^ k) * 36 ^ k + m % 36 ^ k
          = acc * (36 ^ k * 36) + (36 ^ k * (m / 36 ^ k) + m % 36 ^ k) := by ring
        _ = acc * (36 ^ k * 36) + m := by rw [hdm]
        _ = acc * 36 ^ (k + 1) + m := by rw [← pow_succ]
    rw [ih (acc * 36 + m / 36 ^ k) (m % 36 ^ k) hm2 (by rw [hexact]; exact hacc)]
    rw [hexact]

theorem cidDict_length : cidDict.length = 16384 := by
  simp [cidDict]

theorem cidWord_lower (i : Nat) : toLowerWord (cidWord i) = cidWord i := by
  have hlb : ∀ x : Nat, toLowerByte (97 + x) = 97 + x := by
    intro x
    unfold toLowerByte
    rw [if_neg (by omega)]
  simp only [cidWord, toLowerWord, List.map_cons, List.map_nil, hlb]

theorem cidWord_inj (i j : Nat) (hi : i < 16384) (hj : j < 16384)
    (h : cidWord i = cidWord j) : i = j := by
  simp only [cidWord, List.cons.injEq, and_true] at h
  omega

theorem cidDict_lower_nodup : (cidDict.map toLowerWord).Nodup := by
  have he : cidDict.map toLowerWord = cidDict := by
    simp only [cidDict, List.map_map]
    apply List.map_congr_left
    intro i _
    simp only [Function.comp_apply]
    exact cidWord_lower i
  rw [he]
  simp only [cidDict]
  apply List.Nodup.map_on
  · intro x hx y hy hxy
    exact cidWord_inj x y (List.mem_range.mp hx) (List.mem_range.mp hy) hxy
  · exact List.nodup_range 16384

theorem cidDict_no_sep : ∀ w ∈ cidDict, (45:Nat) ∉ w := by
  intro w hw
  simp only [cidDict, List.mem_map] at hw
  obtain ⟨i, _, rfl⟩ := hw
  intro hmem
  simp only [cidWord, List.mem_cons, List.not_mem_nil, or_false] at hmem
  omega

/-- Claim C7: with a dictionary of 16384 case-insensitively distinct
words none of which contains a hyphen-minus (the shipped `16k.txt`
asset), rendering any id below 2⁴² as three dictionary words and
parsing the result returns the same id; and for every id below 36⁹,
parsing its nine-character base-36 digit string returns the same
id. -/
theorem connection_id_roundtrip (words : List Word)
    (hlen : words.length = 16384)
    (hnd : (words.map toLowerWord).Nodup)
    (hsep : ∀ w ∈ words, (45:Nat) ∉ w) :
    (∀ n, n < 2 ^ 42 → ∃ s, display words n = some s ∧
      fromStr words s = Except.ok n) ∧
    (∀ n, n < 36 ^ 9 → fromStr words (toBase36Digits n) = Except.ok n) := by
  constructor
  · intro n hn
    have hm1 : n &&& WORD_MASK < 2 ^ 14 := by
      rw [and_word_mask_eq_mod]
      exact Nat.mod_lt _ (by norm_num)
    have hm2 : (n >>> WORD_SHIFT) &&& WORD_MASK < 2 ^ 14 := by
      rw [and_word_mask_eq_mod]
      exact Nat.mod_lt _ (by norm_num)
    have hm3 : ((n >>> WORD_SHIFT) >>> WORD_SHIFT) &&& WORD_MASK < 2 ^ 14 := by
      rw [and_word_mask_eq_mod]
      exact Nat.mod_lt _ (by norm_num)
    have hb1 : n &&& WORD_MASK < words.length := by
      rw [hlen]
      omega
    have hb2 : (n >>> WORD_SHIFT) &&& WORD_MASK < words.length := by
      rw [hlen]
      omega
    have hb3 : ((n >>> WORD_SHIFT) >>> WORD_SHIFT) &&& WORD_MASK < words.length := by
      rw [hlen]
      omega
    refine ⟨words[n &&& WORD_MASK] ++ 45 :: words[(n >>> WORD_SHIFT) &&& WORD_MASK] ++
      45 :: words[((n >>> WORD_SHIFT) >>> WORD_SHIFT) &&& WORD_MASK], ?_, ?_⟩
    · simp only [display]
      rw [List.getElem?_eq_getElem hb1, List.getElem?_eq_getElem hb2,
        List.getElem?_eq_getElem hb3]
    · rw [fromStr_words_eval words _ _ _ (hsep _ (List.getElem_mem hb1))
        (hsep _ (List.getElem_mem hb2)) (hsep _ (List.getElem_mem hb3))]
      rw [lookupWordsGo_cons words _ _ _ _ _ (wordsInverse_getElem words hnd _ hb1)]
      rw [lookupWordsGo_cons words _ _ _ _ _ (wordsInverse_getElem words hnd _ hb2)]
      rw [lookupWordsGo_cons words _ _ _ _ _ (wordsInverse_getElem words hnd _ hb3)]
      simp only [lookupWordsGo]
      have hsh1 : (0:Nat) + WORD_SHIFT = 14 := rfl
      rw [hsh1]
      have hsh2 : (14:Nat) + WORD_SHIFT = 28 := rfl
      rw [hsh2]
      congr 1
      rw [lor_three_words _ _ _ hm1 hm2]
      rw [and_word_mask_eq_mod, and_word_mask_eq_mod, and_word_mask_eq_mod]
      have hws : WORD_SHIFT = 14 := rfl
      rw [hws]
      rw [Nat.shiftRight_eq_div_pow, Nat.shiftRight_eq_div_pow]
      rw [Nat.div_div_eq_div_mul]
      have hp : (2:Nat) ^ 14 * 2 ^ 14 = 2 ^ 28 := by norm_num
      rw [hp]
      omega
  · intro n hn
    have hlen9 : (toBase36Digits n).length = 9 := by
      simp [toBase36Digits]
    have hge : ∀ c ∈ toBase36Digits n, 48 ≤ c := by
      intro c hc
      simp only [toBase36Digits, List.mem_map] at hc
      obtain ⟨i, _, rfl⟩ := hc
      exact toBase36Digit_ge _
    have h45 : (45:Nat) ∉ toBase36Digits n := by
      intro hmem
      have := hge 45 hmem
      omega
    rw [fromStr_short_eval words (toBase36Digits n) hlen9 h45 hge]
    have hU : (0:Nat) * 36 ^ 9 + n < U64_LIMIT := by
      have h36 : (36:Nat) ^ 9 = 101559956668416 := by norm_num
      have h64 : U64_LIMIT = 18446744073709551616 := by norm_num [U64_LIMIT]
      omega
    have hdig := radix36Go_digits 9 0 n hn hU
    simp only [Nat.zero_mul, Nat.zero_add] at hdig
    have hfun : (fun i => toBase36Digit (n / 36 ^ (9 - 1 - i) % 36)) =
        (fun i => toBase36Digit (n / 36 ^ (8 - i) % 36)) := by
      funext i
      have he : 9 - 1 - i = 8 - i := by omega
      rw [he]
    rw [hfun] at hdig
    have hdig2 : radix36Go (toBase36Digits n) 0 = some n := hdig
    rw [hdig2]

/-- Claim C7 witness: the roundtrip theorem applied to the concrete
16384-word dictionary `cidDict` (the 7-letter base-4 spellings over
`a`–`d`) and the id 123456789, which is below both 2⁴² and 36⁹. -/
theorem connection_id_roundtrip_witness :
    cidDict.length = 16384 ∧
    (∃ s, display cidDict 123456789 = some s ∧
      fromStr cidDict s = Except.ok 123456789) ∧
    fromStr cidDict (toBase36Digits 123456789) = Except.ok 123456789 :=
  ⟨cidDict_length,
   (connection_id_roundtrip cidDict cidDict_length cidDict_lower_nodup cidDict_no_sep).1
     123456789 (by norm_num),
   (connection_id_roundtrip cidDict cidDict_length cidDict_lower_nodup cidDict_no_sep).2
     123456789 (by norm_num)⟩

end WorldHost




